import Mathlib

/-!
Verification of the event recommendation engine in
`src/Event_RecSys_Challenge_ShwetaVerma/.../src/app.js`.

The JavaScript code is shallowly embedded below.  Numbers are modelled as
exact real numbers; the value `Infinity` (used as a "distance unknown /
infinitely far" sentinel) is modelled as `⊤ : WithTop ℝ`.  A JavaScript field
that may be missing or may hold a value of the wrong type is modelled as an
`Option`: `none` stands for "absent, null, or not of the expected type"
(e.g. a non-finite coordinate, a non-numeric popularity, a non-array
category list).  A missing/falsy event identifier is modelled by the empty
string.  JavaScript `Map`/object dictionaries that are only read through
`get(...) || 0` are modelled as total functions with default `0`.
-/

namespace EventRec

/-- A geographic point record.  Each coordinate is `some x` when the field
holds a finite number and `none` when it is missing or not a finite number
(mirroring the `typeof`/`Number.isFinite` tests in `hasValidLocation`). -/
structure GeoPoint where
  lat : Option ℝ
  lng : Option ℝ
deriving Inhabited

/-- An event record.  `id = ""` models a missing/falsy identifier
(the `!ev.id` check); a `none` field models "absent or of the wrong type". -/
structure Event where
  id : String
  categories : Option (List String)
  location : Option GeoPoint
  popularity : Option ℝ
deriving Inhabited

/-- A user record: `{ id, location, preferences[], attendedEvents[] }`. -/
structure User where
  id : String
  location : Option GeoPoint
  preferences : Option (List String)
  attendedEvents : Option (List String)
deriving Inhabited

/-- The five signal weights of `CONFIG.weights`. -/
structure Weights where
  pref : ℝ
  sim : ℝ
  geo : ℝ
  pop : ℝ
  cold : ℝ

/-- The tweakable configuration object `CONFIG` of app.js.  `hardGeoCutoffKm`
is `none` for the `null` setting; `perCategoryCap` is `⊤` for `Infinity`
("disable"). -/
structure Config where
  weights : Weights
  distanceDecayKm : ℝ
  hardGeoCutoffKm : Option ℝ
  diversityEnabled : Bool
  diversityAlpha : ℝ
  perCategoryCap : WithTop ℝ

/-- The configuration values shipped in app.js. -/
noncomputable def CONFIG : Config :=
  { weights := ⟨0.35, 0.30, 0.20, 0.15, 0.10⟩
    distanceDecayKm := 1000
    hardGeoCutoffKm := none
    diversityEnabled := true
    diversityAlpha := 0.08
    perCategoryCap := ((3 : ℝ) : WithTop ℝ) }

/-! ### Math helpers (app.js lines 55-88) -/

def EARTH_RADIUS_KM : ℝ := 6371

noncomputable def toRad (deg : ℝ) : ℝ := deg * Real.pi / 180

/-- `hasValidLocation(loc)`: `loc` is non-null and both coordinates are
finite numbers. -/
def hasValidLocation (loc : Option GeoPoint) : Bool :=
  match loc with
  | none => false
  | some p => p.lat.isSome && p.lng.isSome

/-- Jaccard similarity for arrays of strings (app.js lines 72-81).  `new Set`
is modelled by `List.dedup`. -/
noncomputable def jaccard (arrA arrB : List String) : ℝ :=
  if arrA.length = 0 ∨ arrB.length = 0 then 0
  else
    let setA := arrA.dedup
    let setB := arrB.dedup
    let inter := (setA.filter (fun v => setB.contains v)).length
    let union := setA.length + setB.length - inter
    if union = 0 then 0 else (inter : ℝ) / (union : ℝ)

/-- Distance → [0,1] proximity via exponential decay (app.js lines 83-88).
A non-finite distance (the `⊤` sentinel) yields `0` before `exp` is reached
(the `Number.isFinite` guard). -/
noncomputable def proximityScoreFromKm (distanceKm : WithTop ℝ) (d0 : ℝ) : ℝ :=
  if distanceKm = ⊤ then 0
  else Real.exp (-(max 0 (distanceKm.untop' 0)) / d0)

/-- The JavaScript library function `Math.atan2 (y, x)` on exact reals
(signed zeros do not exist in `ℝ`, so `atan2 0 0 = 0` as in JS). -/
noncomputable def atan2 (y x : ℝ) : ℝ :=
  if 0 < x then Real.arctan (y / x)
  else if x < 0 then
    (if 0 ≤ y then Real.arctan (y / x) + Real.pi else Real.arctan (y / x) - Real.pi)
  else
    (if 0 < y then Real.pi / 2 else if y < 0 then -(Real.pi / 2) else 0)

/-- The Haversine computation of `calculateDistance` on two valid points
(app.js lines 187-197). -/
noncomputable def haversineKm (lat1d lng1d lat2d lng2d : ℝ) : ℝ :=
  let lat1 := toRad lat1d
  let lat2 := toRad lat2d
  let dLat := lat2 - lat1
  let dLng := toRad (lng2d - lng1d)
  let a := Real.sin (dLat / 2) ^ 2 + Real.cos lat1 * Real.cos lat2 * Real.sin (dLng / 2) ^ 2
  let c := 2 * atan2 (Real.sqrt a) (Real.sqrt (1 - a))
  EARTH_RADIUS_KM * c

/-- `calculateDistance(point1, point2)` (app.js lines 184-198): `Infinity`
(modelled `⊤`) if either point is invalid, otherwise the Haversine distance. -/
noncomputable def calculateDistance (point1 point2 : Option GeoPoint) : WithTop ℝ :=
  match point1, point2 with
  | some ⟨some lat1, some lng1⟩, some ⟨some lat2, some lng2⟩ =>
      ((haversineKm lat1 lng1 lat2 lng2 : ℝ) : WithTop ℝ)
  | _, _ => ⊤

/-! ### Heap nodes and comparators (app.js lines 90-135) -/

/-- A heap node `{ score, distance, popularity, id, event }`. -/
structure Node where
  score : ℝ
  distance : WithTop ℝ
  popularity : ℝ
  id : String
  event : Event
deriving Inhabited

/-- The ranking key underlying both comparators: score descending, then
distance ascending, then popularity descending, then id ascending, encoded
so that a *larger* key is a *better* node. -/
abbrev Key := ℝ ×ₗ ((WithTop ℝ)ᵒᵈ ×ₗ (ℝ ×ₗ Stringᵒᵈ))

def keyOf (n : Node) : Key :=
  toLex (n.score, toLex (OrderDual.toDual n.distance,
    toLex (n.popularity, OrderDual.toDual n.id)))

/-- Comparator for the MIN-heap: `heapLess a b` means `a` is WORSE than `b`
(app.js lines 96-102). -/
noncomputable def heapLess (a b : Node) : Bool :=
  if a.score ≠ b.score then decide (a.score < b.score)
  else if a.distance ≠ b.distance then decide (b.distance < a.distance)
  else if a.popularity ≠ b.popularity then decide (a.popularity < b.popularity)
  else decide (b.id < a.id)

/-- "Better" comparator in final ranking order (app.js lines 129-135). -/
noncomputable def betterThan (a b : Node) : Bool :=
  if a.score ≠ b.score then decide (b.score < a.score)
  else if a.distance ≠ b.distance then decide (a.distance < b.distance)
  else if a.popularity ≠ b.popularity then decide (b.popularity < a.popularity)
  else decide (a.id < b.id)

/-- Array indexing `h[i]` (always in bounds in the algorithm). -/
def nth (h : List Node) (i : ℕ) : Node := h.getD i default

/-- `heapSwap(h, i, j)` (app.js line 94). -/
def heapSwap (h : List Node) (i j : ℕ) : List Node :=
  (h.set i (nth h j)).set j (nth h i)

theorem heapSwap_length (h : List Node) (i j : ℕ) :
    (heapSwap h i j).length = h.length := by
  simp [heapSwap]

/-- The parent index `(i - 1) / 2` of the implicit binary-tree layout. -/
def parentIdx (i : ℕ) : ℕ := (i - 1) / 2

/-- `heapSiftUp(h, i)` (app.js lines 104-111). -/
noncomputable def heapSiftUp (h : List Node) (i : ℕ) : List Node :=
  if _hi : i = 0 then h
  else if heapLess (nth h i) (nth h (parentIdx i)) then
    heapSiftUp (heapSwap h i (parentIdx i)) (parentIdx i)
  else h
termination_by i
decreasing_by simp only [parentIdx]; omega

/-- The target index selected by one round of `heapSiftDown`
(app.js lines 115-119): the smallest of `h[i]` and its children. -/
noncomputable def siftTarget (h : List Node) (i : ℕ) : ℕ :=
  let n := h.length
  let l := 2 * i + 1
  let r := 2 * i + 2
  let s1 := if l < n ∧ heapLess (nth h l) (nth h i) then l else i
  if r < n ∧ heapLess (nth h r) (nth h s1) then r else s1

theorem siftTarget_lt (h : List Node) (i : ℕ) :
    siftTarget h i = i ∨ (i < siftTarget h i ∧ siftTarget h i < h.length) := by
  simp only [siftTarget]
  split_ifs <;> omega

/-- `heapSiftDown(h, i)` (app.js lines 113-124): repeatedly swap `h[i]` with
its smallest child until neither child is smaller. -/
noncomputable def heapSiftDown (h : List Node) (i : ℕ) : List Node :=
  if _hs : siftTarget h i = i then h
  else heapSiftDown (heapSwap h i (siftTarget h i)) (siftTarget h i)
termination_by h.length - i
decreasing_by
  rcases siftTarget_lt h i with heq | ⟨h1, h2⟩
  · exact absurd heq _hs
  · simp only [heapSwap_length]; omega

/-- `heapPush(h, node)` (app.js line 126). -/
noncomputable def heapPush (h : List Node) (node : Node) : List Node :=
  heapSiftUp (h ++ [node]) h.length

/-- `heapReplaceRoot(h, node)` (app.js line 127). -/
noncomputable def heapReplaceRoot (h : List Node) (node : Node) : List Node :=
  heapSiftDown (h.set 0 node) 0

/-! ### Similarity counts and category priors (app.js lines 137-172) -/

/-- `counts.set(sid, (counts.get(sid) || 0) + 1)` as a function update. -/
def bumpN (m : String → ℕ) (c : String) : String → ℕ :=
  fun x => if x = c then m c + 1 else m x

/-- `buildSimilarCounts(attended, eventSimilarity)` (app.js lines 140-149).
A null similarity index is modelled by the constant-`none` lookup function,
which produces the same (empty) counts map as the early return. -/
def buildSimilarCounts (attended : List String)
    (eventSimilarity : String → Option (List String)) : String → ℕ :=
  attended.foldl
    (fun counts eid =>
      match eventSimilarity eid with
      | none => counts
      | some sims => sims.foldl (fun cs sid => bumpN cs sid) counts)
    (fun _ => 0)

/-- The clamped popularity used everywhere:
`typeof e.popularity === 'number' ? Math.max(0, Math.min(1, e.popularity)) : 0`. -/
def clampPop : Option ℝ → ℝ
  | some p => max 0 (min 1 p)
  | none => 0

/-- `Array.isArray(e.categories) ? e.categories : []`. -/
def catsOf (e : Event) : List String := e.categories.getD []

/-- `tally.set(c, (tally.get(c) || 0) + v)` as a function update. -/
def bumpR (t : String → ℝ) (c : String) (v : ℝ) : String → ℝ :=
  fun x => if x = c then t c + v else t x

/-- `buildCategoryPopularityMap(events)` (app.js lines 154-162):
category → sum of clamped popularity. -/
def buildCategoryPopularityMap (events : List Event) : String → ℝ :=
  events.foldl
    (fun tally e => (catsOf e).foldl (fun t c => bumpR t c (clampPop e.popularity)) tally)
    (fun _ => 0)

/-- `cats.reduce((s, c) => s + (popByCat.get(c) || 0), 0)`. -/
def priorSumFor (popByCat : String → ℝ) (e : Event) : ℝ :=
  (catsOf e).foldl (fun s c => s + popByCat c) 0

/-- `computeMaxPriorAcrossEvents(events, popByCat)` (app.js lines 164-172). -/
def computeMaxPriorAcrossEvents (events : List Event) (popByCat : String → ℝ) : ℝ :=
  events.foldl (fun m e => max m (priorSumFor popByCat e)) 0

/-! ### Per-user signal activation (app.js lines 211-244) -/

def prefsOf (u : User) : List String := u.preferences.getD []

def attendedOf (u : User) : List String := u.attendedEvents.getD []

def hasPrefs (u : User) : Bool := !(prefsOf u).isEmpty

def hasHistory (u : User) : Bool := !(attendedOf u).isEmpty

def hasGeo (u : User) : Bool := hasValidLocation u.location

def coldStart (u : User) : Bool := !hasPrefs u && !hasHistory u

/-- The `active` record (app.js lines 231-237). -/
structure Active where
  pref : Bool
  sim : Bool
  geo : Bool
  pop : Bool
  cold : Bool

def activeFor (u : User) : Active :=
  { pref := hasPrefs u, sim := hasHistory u, geo := hasGeo u, pop := true, cold := coldStart u }

/-- Sum of the active weights (app.js lines 240-243). -/
def weightSum (w : Weights) (a : Active) : ℝ :=
  (if a.pref then w.pref else 0) + (if a.sim then w.sim else 0) +
    (if a.geo then w.geo else 0) + (if a.pop then w.pop else 0) +
    (if a.cold then w.cold else 0)

/-- `if (weightSum <= 0) weightSum = 1;` (app.js line 244). -/
noncomputable def weightSumSafe (w : Weights) (a : Active) : ℝ :=
  if weightSum w a ≤ 0 then 1 else weightSum w a

/-! ### Scoring one candidate (app.js lines 252-313) -/

/-- The `distanceKm` value of the scoring loop: `Infinity` unless the user has
a valid location and the event does too (app.js lines 269-277). -/
noncomputable def distanceOf (u : User) (ev : Event) : WithTop ℝ :=
  if hasGeo u && hasValidLocation ev.location then calculateDistance u.location ev.location
  else ⊤

/-- The optional hard-cutoff `continue` (app.js lines 273-276).  For the
`null` setting (`none`) `Number.isFinite` is false and nothing is skipped. -/
noncomputable def skipByCutoff (cfg : Config) (u : User) (ev : Event) : Bool :=
  (hasGeo u && hasValidLocation ev.location) &&
    (match cfg.hardGeoCutoffKm with
     | none => false
     | some cut => decide (((cut : ℝ) : WithTop ℝ) < distanceOf u ev))

noncomputable def prefScoreOf (u : User) (ev : Event) : ℝ :=
  if hasPrefs u then jaccard (prefsOf u) (catsOf ev) else 0

noncomputable def simScoreOf (u : User) (simCounts : String → ℕ) (ev : Event) : ℝ :=
  if hasHistory u then min 1 ((simCounts ev.id : ℝ) / ((attendedOf u).length : ℝ)) else 0

noncomputable def geoScoreOf (cfg : Config) (u : User) (ev : Event) : ℝ :=
  if (activeFor u).geo then proximityScoreFromKm (distanceOf u ev) cfg.distanceDecayKm else 0

noncomputable def coldScoreOf (u : User) (popByCat : String → ℝ) (maxPrior : ℝ)
    (ev : Event) : ℝ :=
  if coldStart u then (if 0 < maxPrior then priorSumFor popByCat ev / maxPrior else 0) else 0

/-- The combined, normalized score (app.js lines 287-295). -/
noncomputable def combinedScoreOf (cfg : Config) (u : User) (simCounts : String → ℕ)
    (popByCat : String → ℝ) (maxPrior : ℝ) (ev : Event) : ℝ :=
  ((if (activeFor u).pref then cfg.weights.pref * prefScoreOf u ev else 0) +
   (if (activeFor u).sim then cfg.weights.sim * simScoreOf u simCounts ev else 0) +
   (if (activeFor u).geo then cfg.weights.geo * geoScoreOf cfg u ev else 0) +
   (if (activeFor u).pop then cfg.weights.pop * clampPop ev.popularity else 0) +
   (if (activeFor u).cold then cfg.weights.cold * coldScoreOf u popByCat maxPrior ev else 0)) /
    weightSumSafe cfg.weights (activeFor u)

/-- One iteration of the scoring loop (app.js lines 252-304): `none` when the
event is skipped (`continue`), otherwise the scored heap node. -/
noncomputable def scoreCandidate (cfg : Config) (u : User) (simCounts : String → ℕ)
    (popByCat : String → ℝ) (maxPrior : ℝ) (ev : Event) : Option Node :=
  if ev.id = "" then none
  else if (attendedOf u).contains ev.id then none
  else if skipByCutoff cfg u ev then none
  else
    some
      { score := combinedScoreOf cfg u simCounts popByCat maxPrior ev
        distance := distanceOf u ev
        popularity := clampPop ev.popularity
        id := ev.id
        event := ev }

/-- All scored candidates, in corpus order, with the per-user precomputations
of app.js lines 220-228. -/
noncomputable def scoreCandidates (cfg : Config) (u : User) (events : List Event)
    (eventSimilarity : String → Option (List String)) : List Node :=
  let simCounts := buildSimilarCounts (attendedOf u) eventSimilarity
  let popByCat := if coldStart u then buildCategoryPopularityMap events else fun _ => 0
  let maxPrior := if coldStart u then computeMaxPriorAcrossEvents events popByCat else 0
  events.filterMap (scoreCandidate cfg u simCounts popByCat maxPrior)

/-- The heap update for one scored node (app.js lines 306-312). -/
noncomputable def scanStep (k : ℕ) (heap : List Node) (node : Node) : List Node :=
  if heap.length < k then heapPush heap node
  else if betterThan node (nth heap 0) then heapReplaceRoot heap node
  else heap

/-- The bounded top-K heap scan over all scored candidates. -/
noncomputable def runScan (k : ℕ) (nodes : List Node) : List Node :=
  nodes.foldl (scanStep k) []

/-! ### Final sort, diversity re-rank and the public entry point
(app.js lines 315-333 and 346-393) -/

/-- `heap.sort((a, b) => ...)` comparator (app.js lines 318-323) as a
sortedness relation: `rankLe a b` iff `a` may come before `b`, i.e. `a` is at
least as good as `b` in the total ranking order. -/
noncomputable def rankLe (a b : Node) : Bool := !heapLess a b

/-- `catCounts.set(c, (catCounts.get(c) || 0) + 1)`. -/
def bumpCat (t : String → ℕ) (c : String) : String → ℕ :=
  fun x => if x = c then t c + 1 else t x

/-- `penaltyFor(ev)` (app.js lines 354-363).  The cap test
`Number.isFinite(perCategoryCap) && maxCount >= perCategoryCap` is the
`WithTop` comparison `perCategoryCap ≤ maxCount`, which an infinite cap never
satisfies. -/
noncomputable def penaltyFor (alpha : ℝ) (perCategoryCap : WithTop ℝ)
    (catCounts : String → ℕ) (ev : Event) : ℝ :=
  let cats := catsOf ev
  if cats.isEmpty then 0
  else
    let maxCount := cats.foldl (fun m c => max m (catCounts c)) 0
    let capPenalty : ℝ := if perCategoryCap ≤ ((maxCount : ℝ) : WithTop ℝ) then 0.5 else 0
    alpha * (maxCount : ℝ) + capPenalty

/-- The body of the inner argmax loop (app.js lines 369-381): skip used
slots, compute `val = score - penalty`, keep the strictly better candidate. -/
noncomputable def selectBestStep (nodes : List Node) (alpha : ℝ) (cap : WithTop ℝ)
    (catCounts : String → ℕ) (used : List Bool) (best : ℤ × WithBot ℝ) (i : ℕ) :
    ℤ × WithBot ℝ :=
  if used.getD i false then best
  else
    let node := nth nodes i
    let val : ℝ := node.score - penaltyFor alpha cap catCounts node.event
    if best.2 < (val : WithBot ℝ) then ((i : ℤ), (val : WithBot ℝ)) else best

/-- The inner argmax loop of one re-rank step (app.js lines 366-381):
returns `(bestIdx, bestVal)` starting from `(-1, -Infinity)`. -/
noncomputable def selectBest (nodes : List Node) (alpha : ℝ) (cap : WithTop ℝ)
    (catCounts : String → ℕ) (used : List Bool) : ℤ × WithBot ℝ :=
  (List.range nodes.length).foldl (selectBestStep nodes alpha cap catCounts used) (-1, ⊥)

/-- The mutable loop state of `rerankWithCategoryDiversity`. -/
structure RerankState where
  used : List Bool
  out : List Node
  catCounts : String → ℕ

/-- One step of the greedy selection (app.js lines 365-390).  `bestIdx` is
provably a valid unused index whenever an unused slot remains (see
`selectBest_valid`), so the `Int.toNat` coercion never truncates in a
reachable state. -/
noncomputable def rerankStep (nodes : List Node) (alpha : ℝ) (cap : WithTop ℝ)
    (st : RerankState) : RerankState :=
  let bi := (selectBest nodes alpha cap st.catCounts st.used).1.toNat
  let chosen := nth nodes bi
  { used := st.used.set bi true
    out := st.out ++ [chosen]
    catCounts := (catsOf chosen.event).foldl (fun t c => bumpCat t c) st.catCounts }

/-- `rerankWithCategoryDiversity(nodes, alpha, perCategoryCap)`
(app.js lines 346-393). -/
noncomputable def rerankWithCategoryDiversity (nodes : List Node) (alpha : ℝ)
    (perCategoryCap : WithTop ℝ) : List Node :=
  ((List.range nodes.length).foldl
    (fun st _ => rerankStep nodes alpha perCategoryCap st)
    { used := List.replicate nodes.length false, out := [], catCounts := fun _ => 0 }).out

/-- JavaScript `ToInt32` truncation: `x | 0`. -/
noncomputable def truncTowardZero (x : ℝ) : ℤ := if 0 ≤ x then ⌊x⌋ else -⌊-x⌋

noncomputable def toInt32 (x : ℝ) : ℤ :=
  (truncTowardZero x + 2 ^ 31) % (2 ^ 32) - 2 ^ 31

/-- `getRecommendedEvents(user, events, eventSimilarity, limit)` with the
configuration made explicit (app.js lines 208-333).  The unrepresentable
`!Array.isArray(events)`/`!user` early-outs are outside the model (a list
and a record always exist here); `events.length === 0` and `limit <= 0` are
kept. -/
noncomputable def getRecommendedEventsWith (cfg : Config) (user : User) (events : List Event)
    (eventSimilarity : String → Option (List String)) (limit : ℝ) : List Event :=
  if events.length = 0 ∨ limit ≤ 0 then []
  else
    let k := min (max 0 (toInt32 limit)).toNat events.length
    if k = 0 then []
    else
      let heap := runScan k (scoreCandidates cfg user events eventSimilarity)
      if heap.length = 0 then []
      else
        let nodes := heap.mergeSort rankLe
        let diversified :=
          if cfg.diversityEnabled && decide (1 < nodes.length) then
            rerankWithCategoryDiversity nodes cfg.diversityAlpha cfg.perCategoryCap
          else nodes
        diversified.map (fun n => n.event)

/-- The exported `getRecommendedEvents`, reading the module-level `CONFIG`. -/
noncomputable def getRecommendedEvents (user : User) (events : List Event)
    (eventSimilarity : String → Option (List String)) (limit : ℝ) : List Event :=
  getRecommendedEventsWith CONFIG user events eventSimilarity limit

/-- The call with the `limit = 5` default argument omitted. -/
noncomputable def getRecommendedEventsDefault (user : User) (events : List Event)
    (eventSimilarity : String → Option (List String)) : List Event :=
  getRecommendedEvents user events eventSimilarity 5

/-! ### Spec-side reference definitions -/

/-- An eligible candidate in the sense of the specification: it carries an
identifier, it is not among the user's attended events, and it is not
excluded by the hard geo cutoff. -/
noncomputable def isEligible (cfg : Config) (u : User) (ev : Event) : Bool :=
  decide (ev.id ≠ "") && !(attendedOf u).contains ev.id && !skipByCutoff cfg u ev

noncomputable def eligibleCandidateCount (cfg : Config) (u : User) (events : List Event) : ℕ :=
  (events.filter (isEligible cfg u)).length

/-- Spec-side reference algorithm for the cross-check property: score all
eligible candidates, fully sort them by the total ranking order, truncate
to `k`. -/
noncomputable def fullSortThenTruncate (k : ℕ) (nodes : List Node) : List Node :=
  (nodes.mergeSort rankLe).take k

/-- The set of event identifiers carried by a list of scored nodes. -/
def idsOf (nodes : List Node) : Finset String :=
  (nodes.map (fun n => n.id)).toFinset

/-- Spec-side combined-score formula: Σ(active weight × value) divided by
Σ(active weights), with divisor 1 substituted when the active-weight sum
is 0. -/
noncomputable def specCombinedScore (w : Weights) (a : Active)
    (vPref vSim vGeo vPop vCold : ℝ) : ℝ :=
  ((if a.pref then w.pref * vPref else 0) + (if a.sim then w.sim * vSim else 0) +
   (if a.geo then w.geo * vGeo else 0) + (if a.pop then w.pop * vPop else 0) +
   (if a.cold then w.cold * vCold else 0)) /
    (if weightSum w a = 0 then 1 else weightSum w a)

/-! ### Concrete records used by the closed witness/counterexample theorems -/

/-- A user with one attended event, no preferences and no location. -/
def wUser : User := ⟨"u1", none, none, some ["a"]⟩

/-- A single candidate event without popularity, categories or location. -/
def wEvent : Event := ⟨"b", some [], none, none⟩

/-- An empty similarity index. -/
def wSim : String → Option (List String) := fun _ => none

/-- A user at a valid location with no preferences and no history. -/
def wUserLoc : User := ⟨"u3", some ⟨some 0, some 0⟩, none, none⟩

/-- An event with a missing location. -/
def wEventNoLoc : Event := ⟨"e3", none, none, none⟩

/-- A valid geographic point. -/
def wPoint : Option GeoPoint := some ⟨some 40, some (-74)⟩

/-- A concrete scored node used by closed witness statements. -/
def wSingleNode : Node :=
  { score := 0, distance := ⊤, popularity := 0, id := "a", event := wEvent }

/-- The node that the scoring loop produces for `wEvent` under `wUser`. -/
noncomputable def wNode : Node :=
  { score := combinedScoreOf CONFIG wUser (buildSimilarCounts (attendedOf wUser) wSim)
      (fun _ => 0) 0 wEvent
    distance := distanceOf wUser wEvent
    popularity := clampPop wEvent.popularity
    id := wEvent.id
    event := wEvent }

/-! ### Verification-level predicates -/

/-- The binary min-heap shape invariant: no element has a key below its
parent's key (the root holds the worst retained candidate). -/
def IsHeap (h : List Node) : Prop :=
  ∀ i, 0 < i → i < h.length → keyOf (nth h (parentIdx i)) ≤ keyOf (nth h i)

/-- Heap shape except possibly on the edge from `i` up to its parent;
in addition the children of `i` already dominate `i`'s parent. -/
def AlmostHeapUp (h : List Node) (i : ℕ) : Prop :=
  (∀ j, 0 < j → j < h.length → j ≠ i → keyOf (nth h (parentIdx j)) ≤ keyOf (nth h j)) ∧
  (∀ j, 0 < j → j < h.length → parentIdx j = i → 0 < i →
    keyOf (nth h (parentIdx i)) ≤ keyOf (nth h j))

/-- Heap shape except possibly on the edges from `i` down to its children;
in addition the children of `i` already dominate `i`'s parent. -/
def AlmostHeapDown (h : List Node) (i : ℕ) : Prop :=
  (∀ j, 0 < j → j < h.length → parentIdx j ≠ i →
    keyOf (nth h (parentIdx j)) ≤ keyOf (nth h j)) ∧
  (∀ j, 0 < j → j < h.length → parentIdx j = i → 0 < i →
    keyOf (nth h (parentIdx i)) ≤ keyOf (nth h j))

/-- The running invariant of the top-K scan: the accumulator is a heap, its
size is `min k (number processed)`, and every discarded node's key is below
every retained node's key. -/
def ScanInvariant (k : ℕ) (h : List Node) (processed : Multiset Node) : Prop :=
  IsHeap h ∧ h.length = min k (Multiset.card processed) ∧
  ∃ D : Multiset Node, processed = (h : Multiset Node) + D ∧
    ∀ d ∈ D, ∀ a, a ∈ h → keyOf d ≤ keyOf a

end EventRec

namespace EventRec

/-! ### The comparators implement the lexicographic ranking key -/

theorem keyOf_lt_iff (a b : Node) :
    keyOf a < keyOf b ↔
      a.score < b.score ∨ (a.score = b.score ∧
        (b.distance < a.distance ∨ (a.distance = b.distance ∧
          (a.popularity < b.popularity ∨ (a.popularity = b.popularity ∧ b.id < a.id))))) := by
  unfold keyOf
  rw [Prod.Lex.lt_iff]
  simp only [Prod.Lex.lt_iff, Prod.mk.injEq, OrderDual.toDual_lt_toDual, OrderDual.toDual_inj,
    toLex_inj]

theorem keyOf_eq_iff (a b : Node) :
    keyOf a = keyOf b ↔
      a.score = b.score ∧ a.distance = b.distance ∧ a.popularity = b.popularity ∧
        a.id = b.id := by
  unfold keyOf
  simp only [toLex_inj, Prod.mk.injEq, OrderDual.toDual_inj]

theorem heapLess_iff (a b : Node) : heapLess a b = true ↔ keyOf a < keyOf b := by
  rw [keyOf_lt_iff]
  unfold heapLess
  by_cases h1 : a.score = b.score
  · by_cases h2 : a.distance = b.distance
    · by_cases h3 : a.popularity = b.popularity
      · simp [h1, h2, h3, lt_irrefl]
      · simp [h1, h2, h3, lt_irrefl]
    · simp [h1, h2, lt_irrefl]
  · simp [h1]

theorem betterThan_iff (a b : Node) : betterThan a b = true ↔ keyOf b < keyOf a := by
  rw [keyOf_lt_iff]
  unfold betterThan
  by_cases h1 : a.score = b.score
  · by_cases h2 : a.distance = b.distance
    · by_cases h3 : a.popularity = b.popularity
      · simp [h1, h2, h3, lt_irrefl]
      · simp [h1, h2, h3, lt_irrefl, eq_comm]
    · simp [h1, h2, lt_irrefl, eq_comm]
  · simp [h1, eq_comm]

theorem heapLess_false_iff (a b : Node) : heapLess a b = false ↔ keyOf b ≤ keyOf a := by
  rw [← not_lt, ← heapLess_iff]
  simp

theorem betterThan_false_iff (a b : Node) : betterThan a b = false ↔ keyOf a ≤ keyOf b := by
  rw [← not_lt, ← betterThan_iff]
  simp

theorem rankLe_iff (a b : Node) : rankLe a b = true ↔ keyOf b ≤ keyOf a := by
  unfold rankLe
  simp [heapLess_false_iff]

/-! ### Indexing and permutation facts for the array primitives -/

theorem nth_eq_getElem (h : List Node) (i : ℕ) (hi : i < h.length) : nth h i = h[i] :=
  List.getD_eq_getElem h default hi

theorem nth_set_self (h : List Node) (i : ℕ) (a : Node) (hi : i < h.length) :
    nth (h.set i a) i = a := by
  rw [nth_eq_getElem _ _ (by simpa using hi)]
  simp

theorem nth_set_ne (h : List Node) (i j : ℕ) (a : Node) (hij : i ≠ j) :
    nth (h.set i a) j = nth h j := by
  by_cases hj : j < h.length
  · rw [nth_eq_getElem _ _ (by simpa using hj), nth_eq_getElem _ _ hj]
    exact List.getElem_set_ne hij _
  · unfold nth
    rw [List.getD_eq_default _ _ (by simpa using hj), List.getD_eq_default _ _ (by omega)]

theorem nth_swap_fst (h : List Node) (i j : ℕ) (hij : i ≠ j) (hi : i < h.length) :
    nth (heapSwap h i j) i = nth h j := by
  unfold heapSwap
  rw [nth_set_ne _ _ _ _ (Ne.symm hij), nth_set_self _ _ _ hi]

theorem nth_swap_snd (h : List Node) (i j : ℕ) (hj : j < h.length) :
    nth (heapSwap h i j) j = nth h i := by
  unfold heapSwap
  rw [nth_set_self _ _ _ (by simpa using hj)]

theorem nth_swap_other (h : List Node) (i j m : ℕ) (hmi : m ≠ i) (hmj : m ≠ j) :
    nth (heapSwap h i j) m = nth h m := by
  unfold heapSwap
  rw [nth_set_ne _ _ _ _ (Ne.symm hmj), nth_set_ne _ _ _ _ (Ne.symm hmi)]

theorem perm_cons_set (t : List Node) (m : ℕ) (a : Node) (hm : m < t.length) :
    List.Perm (t[m] :: t.set m a) (a :: t) := by
  induction t generalizing m with
  | nil => simp at hm
  | cons b s ih =>
      cases m with
      | zero => simpa using List.Perm.swap a b s
      | succ m' =>
          have hm' : m' < s.length := by simpa using hm
          show List.Perm (s[m'] :: (b :: s.set m' a)) (a :: b :: s)
          have step1 : List.Perm (s[m'] :: (b :: s.set m' a)) (b :: (s[m'] :: s.set m' a)) :=
            List.Perm.swap b s[m'] (s.set m' a)
          have step2 : List.Perm (b :: (s[m'] :: s.set m' a)) (b :: (a :: s)) :=
            (ih m' hm').cons b
          have step3 : List.Perm (b :: a :: s) (a :: b :: s) := List.Perm.swap a b s
          exact (step1.trans step2).trans step3

theorem set_nth_self (h : List Node) (i : ℕ) : h.set i (nth h i) = h := by
  by_cases hi : i < h.length
  · rw [nth_eq_getElem _ _ hi]
    apply List.ext_getElem (by simp)
    intro m hm1 hm2
    rw [List.getElem_set]
    split
    · subst m; rfl
    · rfl
  · exact List.set_eq_of_length_le (by omega)

theorem heapSwap_perm (h : List Node) (i j : ℕ) (hi : i < h.length) (hj : j < h.length) :
    List.Perm (heapSwap h i j) h := by
  by_cases hij : i = j
  · subst hij
    unfold heapSwap
    rw [List.set_set, set_nth_self]
  · have hj1 : j < (h.set i (nth h j)).length := by simpa using hj
    have e1 : (h.set i (nth h j))[j] = nth h j := by
      rw [← nth_eq_getElem _ _ hj1, nth_set_ne _ _ _ _ hij]
    have p1 : List.Perm ((h.set i (nth h j))[j] :: heapSwap h i j)
        (nth h i :: h.set i (nth h j)) := by
      unfold heapSwap
      exact perm_cons_set (h.set i (nth h j)) j (nth h i) hj1
    have p2 : List.Perm (h[i] :: h.set i (nth h j)) (nth h j :: h) :=
      perm_cons_set h i (nth h j) hi
    rw [e1] at p1
    rw [← nth_eq_getElem _ _ hi] at p2
    exact (p1.trans p2).cons_inv

theorem heapSwap_multiset (h : List Node) (i j : ℕ) (hi : i < h.length) (hj : j < h.length) :
    (heapSwap h i j : Multiset Node) = (h : Multiset Node) :=
  Multiset.coe_eq_coe.mpr (heapSwap_perm h i j hi hj)

/-! ### Heap-shape preservation by the sift operations -/

theorem parentIdx_lt (i : ℕ) (hi : 0 < i) : parentIdx i < i := by
  simp only [parentIdx]; omega

theorem parentIdx_children (i j : ℕ) (hj : 0 < j) (hp : parentIdx j = i) :
    j = 2 * i + 1 ∨ j = 2 * i + 2 := by
  simp only [parentIdx] at hp; omega

theorem parentIdx_left (i : ℕ) : parentIdx (2 * i + 1) = i := by
  simp only [parentIdx]; omega

theorem parentIdx_right (i : ℕ) : parentIdx (2 * i + 2) = i := by
  simp only [parentIdx]; omega

/-- In a heap the root key is the minimum. -/
theorem isHeap_root_le (h : List Node) (hh : IsHeap h) :
    ∀ i, i < h.length → keyOf (nth h 0) ≤ keyOf (nth h i) := by
  intro i
  induction i using Nat.strong_induction_on with
  | _ i ih =>
      intro hi
      rcases Nat.eq_zero_or_pos i with rfl | hpos
      · exact le_refl _
      · exact le_trans (ih (parentIdx i) (parentIdx_lt i hpos)
          (lt_trans (parentIdx_lt i hpos) hi)) (hh i hpos hi)

theorem heapSiftUp_perm (h : List Node) (i : ℕ) (hi : i < h.length) :
    List.Perm (heapSiftUp h i) h := by
  induction h, i using heapSiftUp.induct with
  | case1 h => rw [heapSiftUp]; simp
  | case2 h i hne hless ih =>
      rw [heapSiftUp, dif_neg hne, if_pos hless]
      have hp : parentIdx i < i := parentIdx_lt i (by omega)
      have hperm := heapSwap_perm h i (parentIdx i) hi (by omega)
      exact (ih (by simpa [heapSwap_length] using lt_trans hp hi)).trans hperm
  | case3 h i hne hless => rw [heapSiftUp, dif_neg hne, if_neg hless]

theorem heapSiftUp_isHeap (h : List Node) (i : ℕ) (hi : i < h.length)
    (ha : AlmostHeapUp h i) : IsHeap (heapSiftUp h i) := by
  induction h, i using heapSiftUp.induct with
  | case1 h =>
      rw [heapSiftUp]
      simp only [dif_pos]
      intro j hj hjl
      exact ha.1 j hj hjl (by omega)
  | case2 h i hne hless ih =>
      rw [heapSiftUp, dif_neg hne, if_pos hless]
      have hipos : 0 < i := by omega
      have hp : parentIdx i < i := parentIdx_lt i hipos
      have hplen : parentIdx i < h.length := lt_trans hp hi
      have hkey : keyOf (nth h i) < keyOf (nth h (parentIdx i)) := (heapLess_iff _ _).mp hless
      apply ih (by simpa [heapSwap_length] using hplen)
      set p := parentIdx i with hpdef
      have hswi : nth (heapSwap h i p) i = nth h p := nth_swap_fst h i p (by omega) hi
      have hswp : nth (heapSwap h i p) p = nth h i := nth_swap_snd h i p hplen
      have hswo : ∀ m, m ≠ i → m ≠ p → nth (heapSwap h i p) m = nth h m := by
        intro m h1 h2; exact nth_swap_other h i p m h1 h2
      have hlen : (heapSwap h i p).length = h.length := heapSwap_length h i p
      constructor
      · -- heap shape away from p
        intro j hj hjl hjp
        rw [hlen] at hjl
        by_cases hji : j = i
        · subst hji
          have : parentIdx j = p := rfl
          rw [this, hswi, hswp]
          exact le_of_lt hkey
        · have hnthj : nth (heapSwap h i p) j = nth h j := hswo j hji hjp
          by_cases hpj : parentIdx j = i
          · rw [hpj, hswi, hnthj]
            exact ha.2 j hj hjl hpj hipos
          · by_cases hpp : parentIdx j = p
            · have h2 : keyOf (nth h p) ≤ keyOf (nth h j) := by
                have := ha.1 j hj hjl hji
                rwa [hpp] at this
              rw [hpp, hswp, hnthj]
              exact le_trans (le_of_lt hkey) h2
            · rw [hswo (parentIdx j) hpj hpp, hnthj]
              exact ha.1 j hj hjl hji
      · -- children of p dominate p's parent
        intro j hj hjl hpj hppos
        rw [hlen] at hjl
        have hpplt : parentIdx p < p := parentIdx_lt p hppos
        have hjlt : parentIdx j < j := parentIdx_lt j hj
        have hppne_i : parentIdx p ≠ i := by omega
        have hppne_p : parentIdx p ≠ p := by omega
        rw [hswo (parentIdx p) hppne_i hppne_p]
        by_cases hji : j = i
        · subst hji
          rw [hswi]
          exact ha.1 p hppos hplen (by omega)
        · have hjnp : j ≠ p := by omega
          rw [hswo j hji hjnp]
          have h1 : keyOf (nth h (parentIdx p)) ≤ keyOf (nth h p) :=
            ha.1 p hppos hplen (by omega)
          have h2 : keyOf (nth h p) ≤ keyOf (nth h j) := by
            have := ha.1 j hj hjl hji
            rwa [hpj] at this
          exact le_trans h1 h2
  | case3 h i hne hless =>
      rw [heapSiftUp, dif_neg hne, if_neg hless]
      intro j hj hjl
      by_cases hji : j = i
      · subst hji
        exact (heapLess_false_iff _ _).mp (by simpa using hless)
      · exact ha.1 j hj hjl hji

/-- Case analysis of `siftTarget`: either it stops (and the children of `i`
are not below `i`), or it picks a child strictly below `i` that is not above
the other child. -/
theorem siftTarget_spec (h : List Node) (i : ℕ) :
    (siftTarget h i = i ∧
      (∀ j, (j = 2 * i + 1 ∨ j = 2 * i + 2) → j < h.length →
        keyOf (nth h i) ≤ keyOf (nth h j))) ∨
    (siftTarget h i ≠ i ∧ i < siftTarget h i ∧ siftTarget h i < h.length ∧
      keyOf (nth h (siftTarget h i)) < keyOf (nth h i) ∧
      (∀ j, (j = 2 * i + 1 ∨ j = 2 * i + 2) → j < h.length →
        keyOf (nth h (siftTarget h i)) ≤ keyOf (nth h j))) := by
  simp only [siftTarget]
  by_cases c1 : 2 * i + 1 < h.length ∧ heapLess (nth h (2 * i + 1)) (nth h i) = true
  · rw [if_pos c1]
    by_cases c2 : 2 * i + 2 < h.length ∧ heapLess (nth h (2 * i + 2)) (nth h (2 * i + 1)) = true
    · rw [if_pos c2]
      right
      have hrl : keyOf (nth h (2 * i + 2)) < keyOf (nth h (2 * i + 1)) :=
        (heapLess_iff _ _).mp c2.2
      have hli : keyOf (nth h (2 * i + 1)) < keyOf (nth h i) := (heapLess_iff _ _).mp c1.2
      refine ⟨by omega, by omega, c2.1, lt_trans hrl hli, ?_⟩
      rintro j (rfl | rfl) hj
      · exact le_of_lt hrl
      · exact le_refl _
    · rw [if_neg c2]
      right
      have hli : keyOf (nth h (2 * i + 1)) < keyOf (nth h i) := (heapLess_iff _ _).mp c1.2
      refine ⟨by omega, by omega, c1.1, hli, ?_⟩
      rintro j (rfl | rfl) hj
      · exact le_refl _
      · have : heapLess (nth h (2 * i + 2)) (nth h (2 * i + 1)) = false := by
          rcases Bool.eq_false_or_eq_true (heapLess (nth h (2 * i + 2)) (nth h (2 * i + 1)))
            with ht | hf
          · exact absurd ⟨hj, ht⟩ c2
          · exact hf
        exact (heapLess_false_iff _ _).mp this
  · rw [if_neg c1]
    by_cases c2 : 2 * i + 2 < h.length ∧ heapLess (nth h (2 * i + 2)) (nth h i) = true
    · rw [if_pos c2]
      right
      have hri : keyOf (nth h (2 * i + 2)) < keyOf (nth h i) := (heapLess_iff _ _).mp c2.2
      refine ⟨by omega, by omega, c2.1, hri, ?_⟩
      rintro j (rfl | rfl) hj
      · have : heapLess (nth h (2 * i + 1)) (nth h i) = false := by
          rcases Bool.eq_false_or_eq_true (heapLess (nth h (2 * i + 1)) (nth h i)) with ht | hf
          · exact absurd ⟨hj, ht⟩ c1
          · exact hf
        exact le_trans (le_of_lt hri) ((heapLess_false_iff _ _).mp this)
      · exact le_refl _
    · rw [if_neg c2]
      left
      refine ⟨rfl, ?_⟩
      rintro j (rfl | rfl) hj
      · have : heapLess (nth h (2 * i + 1)) (nth h i) = false := by
          rcases Bool.eq_false_or_eq_true (heapLess (nth h (2 * i + 1)) (nth h i)) with ht | hf
          · exact absurd ⟨hj, ht⟩ c1
          · exact hf
        exact (heapLess_false_iff _ _).mp this
      · have : heapLess (nth h (2 * i + 2)) (nth h i) = false := by
          rcases Bool.eq_false_or_eq_true (heapLess (nth h (2 * i + 2)) (nth h i)) with ht | hf
          · exact absurd ⟨hj, ht⟩ c2
          · exact hf
        exact (heapLess_false_iff _ _).mp this

theorem siftTarget_mem (h : List Node) (i : ℕ) (hne : siftTarget h i ≠ i) :
    siftTarget h i = 2 * i + 1 ∨ siftTarget h i = 2 * i + 2 := by
  simp only [siftTarget] at hne ⊢
  split_ifs at hne ⊢ <;> omega

theorem heapSiftDown_perm (h : List Node) (i : ℕ) :
    List.Perm (heapSiftDown h i) h := by
  induction h, i using heapSiftDown.induct with
  | case1 h i hstop => rw [heapSiftDown, dif_pos hstop]
  | case2 h i hne ih =>
      rw [heapSiftDown, dif_neg hne]
      rcases siftTarget_spec h i with ⟨heq, _⟩ | ⟨_, hlt, hlen, _, _⟩
      · exact absurd heq hne
      · exact ih.trans (heapSwap_perm h i (siftTarget h i) (by omega) hlen)

theorem heapSiftDown_isHeap (h : List Node) (i : ℕ) (ha : AlmostHeapDown h i) :
    IsHeap (heapSiftDown h i) := by
  induction h, i using heapSiftDown.induct with
  | case1 h i hstop =>
      rw [heapSiftDown, dif_pos hstop]
      rcases siftTarget_spec h i with ⟨_, hdom⟩ | ⟨hne, _⟩
      · intro j hj hjl
        by_cases hpj : parentIdx j = i
        · rw [hpj]
          exact hdom j (parentIdx_children i j hj hpj) hjl
        · exact ha.1 j hj hjl hpj
      · exact absurd hstop hne
  | case2 h i hne ih =>
      rw [heapSiftDown, dif_neg hne]
      rcases siftTarget_spec h i with ⟨heq, _⟩ | ⟨_, hlt, hslen, hkey, hdom⟩
      · exact absurd heq hne
      · set s := siftTarget h i with hsdef
        have hilen : i < h.length := by omega
        have hswi : nth (heapSwap h i s) i = nth h s := nth_swap_fst h i s (by omega) hilen
        have hsws : nth (heapSwap h i s) s = nth h i := nth_swap_snd h i s hslen
        have hswo : ∀ m, m ≠ i → m ≠ s → nth (heapSwap h i s) m = nth h m := by
          intro m h1 h2; exact nth_swap_other h i s m h1 h2
        have hlen : (heapSwap h i s).length = h.length := heapSwap_length h i s
        have hps : parentIdx s = i := by
          rcases siftTarget_mem h i hne with h1 | h1
          · rw [hsdef, h1]; exact parentIdx_left i
          · rw [hsdef, h1]; exact parentIdx_right i
        apply ih
        constructor
        · intro j hj hjl hpjs
          rw [hlen] at hjl
          by_cases hjs : j = s
          · subst hjs
            rw [hps, hswi, hsws]
            exact le_of_lt hkey
          · by_cases hji : j = i
            · subst hji
              have hipos : 0 < j := hj
              have hpi_lt : parentIdx j < j := parentIdx_lt j hj
              have hpi_ne_i : parentIdx j ≠ j := by omega
              have hpi_ne_s : parentIdx j ≠ s := by omega
              rw [hswo (parentIdx j) hpi_ne_i hpi_ne_s, hswi]
              exact ha.2 s (by omega) hslen hps hj
            · have hnthj : nth (heapSwap h i s) j = nth h j := hswo j hji hjs
              by_cases hpj : parentIdx j = i
              · rw [hpj, hswi, hnthj]
                exact hdom j (parentIdx_children i j hj hpj) hjl
              · have hpp_ne_s : parentIdx j ≠ s := hpjs
                rw [hswo (parentIdx j) hpj hpp_ne_s, hnthj]
                exact ha.1 j hj hjl hpj
        · intro j hj hjl hpj hspos
          rw [hlen] at hjl
          have hjlt : parentIdx j < j := parentIdx_lt j hj
          have hji : j ≠ i := by omega
          have hjs : j ≠ s := by omega
          rw [hps, hswi, hswo j hji hjs]
          have := ha.1 j hj hjl (by omega)
          rwa [hpj] at this

/-- `heapPush` preserves the heap contents as a multiset plus the new node. -/
theorem heapPush_perm (h : List Node) (x : Node) :
    List.Perm (heapPush h x) (h ++ [x]) := by
  unfold heapPush
  exact heapSiftUp_perm (h ++ [x]) h.length (by simp)

theorem nth_append_lt (h : List Node) (x : Node) (j : ℕ) (hj : j < h.length) :
    nth (h ++ [x]) j = nth h j := by
  rw [nth_eq_getElem _ _ (by simp; omega), nth_eq_getElem _ _ hj]
  exact List.getElem_append_left hj

theorem nth_append_len (h : List Node) (x : Node) : nth (h ++ [x]) h.length = x := by
  rw [nth_eq_getElem _ _ (by simp)]
  simp

theorem heapPush_isHeap (h : List Node) (x : Node) (hh : IsHeap h) :
    IsHeap (heapPush h x) := by
  unfold heapPush
  apply heapSiftUp_isHeap _ _ (by simp)
  constructor
  · intro j hj hjl hjne
    have hjlen : j < h.length := by
      simp only [List.length_append, List.length_singleton] at hjl
      omega
    have hplt : parentIdx j < j := parentIdx_lt j hj
    rw [nth_append_lt _ _ _ hjlen, nth_append_lt _ _ _ (by omega)]
    exact hh j hj hjlen
  · intro j hj hjl hpj _
    have : j = 2 * h.length + 1 ∨ j = 2 * h.length + 2 := parentIdx_children _ j hj hpj
    simp only [List.length_append, List.length_singleton] at hjl
    omega

theorem heapReplaceRoot_perm (h : List Node) (x : Node) :
    List.Perm (heapReplaceRoot h x) (h.set 0 x) := by
  unfold heapReplaceRoot
  exact heapSiftDown_perm (h.set 0 x) 0

theorem heapReplaceRoot_isHeap (h : List Node) (x : Node) (hh : IsHeap h) :
    IsHeap (heapReplaceRoot h x) := by
  unfold heapReplaceRoot
  apply heapSiftDown_isHeap
  constructor
  · intro j hj hjl hpj
    have hplt : parentIdx j < j := parentIdx_lt j hj
    have hppos : 0 < parentIdx j := by omega
    rw [nth_set_ne _ _ _ _ (by omega), nth_set_ne _ _ _ _ (by omega)]
    exact hh j hj (by simpa using hjl)
  · intro j hj hjl hpj hpos
    exact absurd hpos (by omega)

/-! ### The scan loop retains exactly the top-k nodes -/

theorem isHeap_root_le_mem (h : List Node) (hh : IsHeap h) (a : Node) (ha : a ∈ h) :
    keyOf (nth h 0) ≤ keyOf a := by
  obtain ⟨i, hi, rfl⟩ := List.mem_iff_getElem.mp ha
  rw [← nth_eq_getElem h i hi]
  exact isHeap_root_le h hh i hi

theorem scanStep_invariant (k : ℕ) (h : List Node) (processed : Multiset Node) (x : Node)
    (hinv : ScanInvariant k h processed) : ScanInvariant k (scanStep k h x) (x ::ₘ processed) := by
  obtain ⟨hheap, hlen, D, hsum, hdom⟩ := hinv
  unfold scanStep
  by_cases hlt : h.length < k
  · rw [if_pos hlt]
    have hD : D = 0 := by
      have hcard := congrArg Multiset.card hsum
      simp only [Multiset.card_add, Multiset.coe_card] at hcard
      have : Multiset.card processed = h.length := by omega
      have : Multiset.card D = 0 := by omega
      exact Multiset.card_eq_zero.mp this
    subst hD
    refine ⟨heapPush_isHeap h x hheap, ?_, 0, ?_, by simp⟩
    · rw [(heapPush_perm h x).length_eq]
      simp only [Multiset.card_cons]
      simp only [List.length_append, List.length_singleton]
      omega
    · rw [Multiset.coe_eq_coe.mpr (heapPush_perm h x)]
      simp only [add_zero] at hsum
      rw [hsum, add_zero, Multiset.cons_coe]
      exact Multiset.coe_eq_coe.mpr (List.perm_append_singleton x h).symm
  · rw [if_neg hlt]
    have hlk : h.length = k := by omega
    have hck : k ≤ Multiset.card processed := by
      have hcard := congrArg Multiset.card hsum
      simp only [Multiset.card_add, Multiset.coe_card] at hcard
      omega
    by_cases hb : betterThan x (nth h 0) = true
    · rw [if_pos hb]
      cases h with
      | nil =>
          have hk0 : k = 0 := by simpa using hlk.symm
          have hset0 : ([] : List Node).set 0 x = [] := rfl
          have hst : siftTarget ([] : List Node) 0 = 0 := by simp [siftTarget]
          have hrepl : heapReplaceRoot [] x = [] := by
            unfold heapReplaceRoot
            rw [hset0, heapSiftDown, dif_pos hst]
          rw [hrepl]
          refine ⟨by intro j hj hjl; simp at hjl, by simp [hk0], x ::ₘ D, ?_, ?_⟩
          · rw [hsum]; simp [Multiset.cons_swap]
          · intro d hd a ha
            simp at ha
      | cons h0 t =>
          have hkey0 : keyOf (nth (h0 :: t) 0) < keyOf x := (betterThan_iff _ _).mp hb
          have hset : (h0 :: t).set 0 x = x :: t := rfl
          have hmem : ∀ a, a ∈ heapReplaceRoot (h0 :: t) x ↔ a ∈ x :: t := by
            intro a
            rw [(heapReplaceRoot_perm (h0 :: t) x).mem_iff, hset]
          refine ⟨heapReplaceRoot_isHeap (h0 :: t) x hheap, ?_, h0 ::ₘ D, ?_, ?_⟩
          · rw [(heapReplaceRoot_perm (h0 :: t) x).length_eq, hset]
            simp only [List.length_cons, Multiset.card_cons]
            simp only [List.length_cons] at hlk
            omega
          · rw [Multiset.coe_eq_coe.mpr (heapReplaceRoot_perm (h0 :: t) x), hset, hsum]
            simp only [← Multiset.cons_coe, ← Multiset.singleton_add]
            abel
          · intro d hd a ha
            rw [hmem a] at ha
            have hroot_le : ∀ b, b ∈ (h0 :: t) → keyOf h0 ≤ keyOf b := by
              intro b hbmem
              have := isHeap_root_le_mem (h0 :: t) hheap b hbmem
              simpa [nth] using this
            have hx : keyOf h0 < keyOf x := by simpa [nth] using hkey0
            have hdh0 : keyOf d ≤ keyOf h0 := by
              rcases Multiset.mem_cons.mp hd with h1 | h1
              · exact le_of_eq (congrArg keyOf h1)
              · exact hdom d h1 h0 (List.mem_cons_self h0 t)
            rcases List.mem_cons.mp ha with h2 | h2
            · rw [h2]
              exact le_trans hdh0 (le_of_lt hx)
            · exact le_trans hdh0 (hroot_le a (List.mem_cons_of_mem h0 h2))
    · rw [if_neg hb]
      refine ⟨hheap, ?_, x ::ₘ D, ?_, ?_⟩
      · simp only [Multiset.card_cons]
        omega
      · rw [hsum]
        simp [Multiset.cons_swap, Multiset.cons_add]
      · intro d hd a ha
        rcases Multiset.mem_cons.mp hd with rfl | hdD
        · have hbf : betterThan d (nth h 0) = false := by
            rcases Bool.eq_false_or_eq_true (betterThan d (nth h 0)) with ht | hf
            · exact absurd ht hb
            · exact hf
          have hxroot : keyOf d ≤ keyOf (nth h 0) := (betterThan_false_iff _ _).mp hbf
          exact le_trans hxroot (isHeap_root_le_mem h hheap a ha)
        · exact hdom d hdD a ha

theorem foldl_scanStep_invariant (k : ℕ) (xs : List Node) :
    ∀ (h : List Node) (processed : Multiset Node), ScanInvariant k h processed →
      ScanInvariant k (xs.foldl (scanStep k) h) (processed + (xs : Multiset Node)) := by
  induction xs with
  | nil => intro h processed hinv; simpa using hinv
  | cons x xs ih =>
      intro h processed hinv
      have step := scanStep_invariant k h processed x hinv
      have := ih (scanStep k h x) (x ::ₘ processed) step
      simp only [List.foldl_cons]
      have e : (x ::ₘ processed) + (xs : Multiset Node) =
          processed + ((x :: xs : List Node) : Multiset Node) := by
        rw [← Multiset.cons_coe]
        simp only [← Multiset.singleton_add]
        abel
      rwa [e] at this

theorem runScan_invariant (k : ℕ) (xs : List Node) :
    ScanInvariant k (runScan k xs) (xs : Multiset Node) := by
  unfold runScan
  have hinit : ScanInvariant k [] 0 := by
    refine ⟨by intro j hj hjl; simp at hjl, by simp, 0, by simp, by simp⟩
  have := foldl_scanStep_invariant k xs [] 0 hinit
  simpa using this

/-! ### Any two dominating selections of equal size have the same keys -/

theorem countP_dominated (p : Key → Prop) [DecidablePred p]
    (hp : ∀ x y : Key, x ≤ y → p x → p y)
    (H D : Multiset Node) (hdom : ∀ d ∈ D, ∀ a ∈ H, keyOf d ≤ keyOf a) :
    Multiset.countP p (H.map keyOf) =
      min (Multiset.card H) (Multiset.countP p ((H + D).map keyOf)) := by
  by_cases hex : ∃ d ∈ D, p (keyOf d)
  · obtain ⟨d, hd, hpd⟩ := hex
    have hallH : ∀ a ∈ H, p (keyOf a) := fun a ha => hp _ _ (hdom d hd a ha) hpd
    have h1 : Multiset.countP p (H.map keyOf) = Multiset.card H := by
      rw [Multiset.countP_eq_card.mpr]
      · simp
      · intro x hx
        obtain ⟨a, ha, rfl⟩ := Multiset.mem_map.mp hx
        exact hallH a ha
    rw [h1]
    have h2 : Multiset.card H ≤ Multiset.countP p ((H + D).map keyOf) := by
      calc Multiset.card H = Multiset.countP p (H.map keyOf) := h1.symm
        _ ≤ Multiset.countP p ((H + D).map keyOf) := by
            rw [Multiset.map_add, Multiset.countP_add]
            omega
    omega
  · push_neg at hex
    have hD0 : Multiset.countP p (D.map keyOf) = 0 := by
      rw [Multiset.countP_eq_zero]
      intro x hx
      obtain ⟨d, hd, rfl⟩ := Multiset.mem_map.mp hx
      exact hex d hd
    have hle : Multiset.countP p (H.map keyOf) ≤ Multiset.card H := by
      calc Multiset.countP p (H.map keyOf) ≤ Multiset.card (H.map keyOf) :=
            Multiset.countP_le_card p _
        _ = Multiset.card H := Multiset.card_map _ _
    rw [Multiset.map_add, Multiset.countP_add, hD0]
    omega

/-- Two selections of the same size out of the same pool, each of which
dominates everything it discarded, consist of the same keys. -/
theorem topk_keys_unique (m H₁ H₂ D₁ D₂ : Multiset Node)
    (he1 : m = H₁ + D₁) (he2 : m = H₂ + D₂)
    (hc : Multiset.card H₁ = Multiset.card H₂)
    (hd1 : ∀ d ∈ D₁, ∀ a ∈ H₁, keyOf d ≤ keyOf a)
    (hd2 : ∀ d ∈ D₂, ∀ a ∈ H₂, keyOf d ≤ keyOf a) :
    H₁.map keyOf = H₂.map keyOf := by
  classical
  rw [Multiset.ext]
  intro v
  have hsplit : ∀ s : Multiset Key,
      Multiset.countP (fun x => v ≤ x) s =
        Multiset.countP (fun x => v < x) s + Multiset.countP (fun x => v = x) s := by
    intro s
    induction s using Multiset.induction_on with
    | empty => simp
    | cons x s ih =>
        simp only [Multiset.countP_cons]
        rcases lt_trichotomy v x with h1 | h1 | h1
        · rw [if_pos (le_of_lt h1), if_pos h1, if_neg (ne_of_lt h1)]
          omega
        · rw [if_pos (le_of_eq h1), if_neg (show ¬ v < x by rw [h1]; exact lt_irrefl x),
            if_pos h1]
          omega
        · rw [if_neg (not_le_of_lt h1), if_neg (asymm h1), if_neg (ne_of_gt h1)]
          omega
  have hcnt : ∀ s : Multiset Key, Multiset.count v s = Multiset.countP (fun x => v = x) s :=
    fun s => rfl
  have hle1 := countP_dominated (fun x => v ≤ x)
    (fun x y hxy hvx => le_trans hvx hxy) H₁ D₁ hd1
  have hlt1 := countP_dominated (fun x => v < x)
    (fun x y hxy hvx => lt_of_lt_of_le hvx hxy) H₁ D₁ hd1
  have hle2 := countP_dominated (fun x => v ≤ x)
    (fun x y hxy hvx => le_trans hvx hxy) H₂ D₂ hd2
  have hlt2 := countP_dominated (fun x => v < x)
    (fun x y hxy hvx => lt_of_lt_of_le hvx hxy) H₂ D₂ hd2
  rw [← he1] at hle1 hlt1
  rw [← he2] at hle2 hlt2
  have hs1 := hsplit (H₁.map keyOf)
  have hs2 := hsplit (H₂.map keyOf)
  rw [hcnt (H₁.map keyOf), hcnt (H₂.map keyOf)]
  omega

/-! ### The full-sort-then-truncate reference satisfies the same invariant -/

theorem rankLe_trans (a b c : Node) (hab : rankLe a b) (hbc : rankLe b c) : rankLe a c := by
  rw [rankLe_iff] at *
  exact le_trans hbc hab

theorem rankLe_total (a b : Node) : rankLe a b || rankLe b a := by
  rcases le_total (keyOf b) (keyOf a) with h | h
  · rw [Bool.or_eq_true]; left; exact (rankLe_iff a b).mpr h
  · rw [Bool.or_eq_true]; right; exact (rankLe_iff b a).mpr h

theorem fullSortThenTruncate_spec (k : ℕ) (xs : List Node) :
    (fullSortThenTruncate k xs).length = min k xs.length ∧
    ∃ D : Multiset Node, (xs : Multiset Node) = (fullSortThenTruncate k xs : Multiset Node) + D ∧
      ∀ d ∈ D, ∀ a, a ∈ fullSortThenTruncate k xs → keyOf d ≤ keyOf a := by
  unfold fullSortThenTruncate
  set sorted := xs.mergeSort rankLe with hsort
  have hperm : List.Perm sorted xs := List.mergeSort_perm xs rankLe
  have hpw : sorted.Pairwise (fun a b => rankLe a b = true) := by
    rw [hsort]
    exact List.sorted_mergeSort (fun a b c => rankLe_trans a b c) rankLe_total xs
  refine ⟨?_, (sorted.drop k : Multiset Node), ?_, ?_⟩
  · rw [List.length_take, hperm.length_eq]
  · rw [show (xs : Multiset Node) = (sorted : Multiset Node) from
      (Multiset.coe_eq_coe.mpr hperm).symm]
    rw [Multiset.coe_add, List.take_append_drop]
  · intro d hd a ha
    rw [Multiset.mem_coe] at hd
    obtain ⟨j, hj, rfl⟩ := List.mem_iff_getElem.mp hd
    obtain ⟨i, hi, rfl⟩ := List.mem_iff_getElem.mp ha
    rw [List.getElem_drop]
    rw [List.getElem_take]
    have hik : i < k := by
      have := hi
      simp only [List.length_take] at this
      omega
    have hlt : i < k + j := by omega
    have hrel := List.pairwise_iff_getElem.mp hpw i (k + j)
      (by
        have h1 : i < (List.take k sorted).length := hi
        simp only [List.length_take] at h1
        have h2 : j < (List.drop k sorted).length := hj
        simp only [List.length_drop] at h2
        omega)
      (by
        have h2 : j < (List.drop k sorted).length := hj
        simp only [List.length_drop] at h2
        omega) hlt
    exact (rankLe_iff _ _).mp hrel

/-- The heap scan and the full sort agree on the selected key multiset. -/
theorem runScan_keys_eq_sort (k : ℕ) (xs : List Node) :
    (runScan k xs : Multiset Node).map keyOf =
      (fullSortThenTruncate k xs : Multiset Node).map keyOf := by
  obtain ⟨hheap, hlen1, D₁, hsum1, hdom1⟩ := runScan_invariant k xs
  obtain ⟨hlen2, D₂, hsum2, hdom2⟩ := fullSortThenTruncate_spec k xs
  refine topk_keys_unique (xs : Multiset Node) _ _ D₁ D₂ hsum1 hsum2 ?_ ?_ ?_
  · simp only [Multiset.coe_card]
    rw [hlen2, hlen1]
    simp
  · intro d hd a ha
    exact hdom1 d hd a (Multiset.mem_coe.mp ha)
  · intro d hd a ha
    exact hdom2 d hd a (Multiset.mem_coe.mp ha)

theorem runScan_ids_eq_sort (k : ℕ) (xs : List Node) :
    idsOf (runScan k xs) = idsOf (fullSortThenTruncate k xs) := by
  have hkeys := runScan_keys_eq_sort k xs
  have hids : ((runScan k xs : Multiset Node).map fun n => n.id) =
      ((fullSortThenTruncate k xs : Multiset Node).map fun n => n.id) := by
    have e1 : ((runScan k xs : Multiset Node).map fun n => n.id) =
        ((runScan k xs : Multiset Node).map keyOf).map
          (fun key => OrderDual.ofDual (ofLex (ofLex (ofLex key).2).2).2) := by
      rw [Multiset.map_map]
      rfl
    have e2 : ((fullSortThenTruncate k xs : Multiset Node).map fun n => n.id) =
        ((fullSortThenTruncate k xs : Multiset Node).map keyOf).map
          (fun key => OrderDual.ofDual (ofLex (ofLex (ofLex key).2).2).2) := by
      rw [Multiset.map_map]
      rfl
    rw [e1, e2, hkeys]
  unfold idsOf
  have hm : ((runScan k xs).map fun n => n.id : Multiset String) =
      ((fullSortThenTruncate k xs).map fun n => n.id : Multiset String) := by
    rw [← Multiset.map_coe, ← Multiset.map_coe]
    exact hids
  rw [← List.toFinset_coe, ← List.toFinset_coe, hm]

/-! ### The diversity re-rank is a permutation -/

theorem getD_set_self_bool (l : List Bool) (i : ℕ) (a : Bool) (hi : i < l.length) :
    (l.set i a).getD i false = a := by
  rw [List.getD_eq_getElem _ _ (by simpa using hi)]
  simp

theorem getD_set_ne_bool (l : List Bool) (i j : ℕ) (a : Bool) (hij : i ≠ j) :
    (l.set i a).getD j false = l.getD j false := by
  by_cases hj : j < l.length
  · rw [List.getD_eq_getElem _ _ (by simpa using hj), List.getD_eq_getElem _ _ hj]
    exact List.getElem_set_ne hij _
  · rw [List.getD_eq_default _ _ (by simpa using hj), List.getD_eq_default _ _ (by omega)]

theorem getD_replicate_bool (n i : ℕ) : ((List.replicate n false).getD i false) = false := by
  by_cases hi : i < n
  · rw [List.getD_eq_getElem _ _ (by simpa using hi)]
    simp
  · rw [List.getD_eq_default _ _ (by simpa using hi)]

theorem map_nth_range (nodes : List Node) :
    (List.range nodes.length).map (nth nodes) = nodes := by
  apply List.ext_getElem (by simp)
  intro i h1 h2
  rw [List.getElem_map, List.getElem_range]
  exact nth_eq_getElem nodes i h2

/-- Removing one satisfying element from a duplicate-free index list by
flipping its predicate value removes exactly that element of the filter. -/
theorem filter_flip_multiset (l : List ℕ) (hl : l.Nodup) (b : ℕ) (hb : b ∈ l)
    (p q : ℕ → Bool) (hpb : p b = true) (hqb : q b = false)
    (hagree : ∀ i ∈ l, i ≠ b → p i = q i) :
    (l.filter p : Multiset ℕ) = b ::ₘ (l.filter q : Multiset ℕ) := by
  induction l with
  | nil => simp at hb
  | cons x t ih =>
      rcases List.mem_cons.mp hb with rfl | hbt
      · have hxnotint : b ∉ t := (List.nodup_cons.mp hl).1
        have hfilter_eq : t.filter p = t.filter q := by
          apply List.filter_congr
          intro i hit
          have : i ≠ b := fun heq => hxnotint (heq ▸ hit)
          exact hagree i (List.mem_cons_of_mem b hit) this
        rw [List.filter_cons_of_pos hpb, List.filter_cons_of_neg (by simp [hqb]), hfilter_eq]
        rw [← Multiset.cons_coe]
      · have hxb : x ≠ b := fun heq => (List.nodup_cons.mp hl).1 (heq ▸ hbt)
        have hagree_t : ∀ i ∈ t, i ≠ b → p i = q i :=
          fun i hit hib => hagree i (List.mem_cons_of_mem x hit) hib
        have hrec := ih (List.nodup_cons.mp hl).2 hbt hagree_t
        have hpx_qx : p x = q x := hagree x (List.mem_cons_self x t) hxb
        rcases Bool.eq_false_or_eq_true (p x) with hpx | hpx
        · rw [List.filter_cons_of_pos hpx, List.filter_cons_of_pos (hpx_qx ▸ hpx)]
          rw [← Multiset.cons_coe, ← Multiset.cons_coe, hrec, Multiset.cons_swap]
        · rw [List.filter_cons_of_neg (by simp [hpx]), List.filter_cons_of_neg
            (by simp [← hpx_qx, hpx]), hrec]

theorem selectBest_fold_valid (nodes : List Node) (alpha : ℝ) (cap : WithTop ℝ)
    (catCounts : String → ℕ) (used : List Bool) :
    ∀ (l : List ℕ) (acc : ℤ × WithBot ℝ),
      (acc.2 ≠ ⊥ → 0 ≤ acc.1 ∧ acc.1.toNat < nodes.length ∧
        used.getD acc.1.toNat false = false) →
      (∀ i ∈ l, i < nodes.length) →
      ((l.foldl (selectBestStep nodes alpha cap catCounts used) acc).2 ≠ ⊥ →
        0 ≤ (l.foldl (selectBestStep nodes alpha cap catCounts used) acc).1 ∧
        (l.foldl (selectBestStep nodes alpha cap catCounts used) acc).1.toNat <
          nodes.length ∧
        used.getD ((l.foldl (selectBestStep nodes alpha cap catCounts used) acc).1.toNat)
          false = false) := by
  intro l
  induction l with
  | nil => intro acc hacc _; simpa using hacc
  | cons x t ih =>
      intro acc hacc hbound
      simp only [List.foldl_cons]
      apply ih
      · unfold selectBestStep
        rcases Bool.eq_false_or_eq_true (used.getD x false) with hux | hux
        · rw [if_pos hux]
          exact hacc
        · rw [if_neg (by rw [hux]; simp)]
          dsimp only
          split_ifs with hcmp
          · intro _
            refine ⟨by positivity, by simpa using hbound x (List.mem_cons_self x t), ?_⟩
            simpa using hux
          · exact hacc
      · intro i hit
        exact hbound i (List.mem_cons_of_mem x hit)

theorem selectBest_fold_ne_bot (nodes : List Node) (alpha : ℝ) (cap : WithTop ℝ)
    (catCounts : String → ℕ) (used : List Bool) :
    ∀ (l : List ℕ) (acc : ℤ × WithBot ℝ),
      ((∃ i ∈ l, used.getD i false = false) ∨ acc.2 ≠ ⊥) →
      (l.foldl (selectBestStep nodes alpha cap catCounts used) acc).2 ≠ ⊥ := by
  intro l
  induction l with
  | nil =>
      intro acc hacc
      rcases hacc with ⟨i, hi, _⟩ | h
      · simp at hi
      · simpa using h
  | cons x t ih =>
      intro acc hacc
      simp only [List.foldl_cons]
      rcases Bool.eq_false_or_eq_true (used.getD x false) with hux | hux
      · apply ih
        rcases hacc with ⟨i, hi, hiu⟩ | h
        · rcases List.mem_cons.mp hi with heq | hit
          · rw [heq, hux] at hiu
            exact absurd hiu (by simp)
          · exact Or.inl ⟨i, hit, hiu⟩
        · right
          unfold selectBestStep
          rw [if_pos hux]
          exact h
      · apply ih
        right
        unfold selectBestStep
        rw [if_neg (by rw [hux]; simp)]
        dsimp only
        split_ifs with hcmp
        · simp
        · intro hbot
          rw [hbot] at hcmp
          exact hcmp (by simp)

/-- Whenever an unused slot remains, `selectBest` returns a valid unused
index (so the `Int.toNat` in `rerankStep` never truncates). -/
theorem selectBest_valid (nodes : List Node) (alpha : ℝ) (cap : WithTop ℝ)
    (catCounts : String → ℕ) (used : List Bool)
    (hex : ∃ i, i < nodes.length ∧ used.getD i false = false) :
    0 ≤ (selectBest nodes alpha cap catCounts used).1 ∧
    (selectBest nodes alpha cap catCounts used).1.toNat < nodes.length ∧
    used.getD (selectBest nodes alpha cap catCounts used).1.toNat false = false := by
  obtain ⟨i0, hi0, hu0⟩ := hex
  have hne := selectBest_fold_ne_bot nodes alpha cap catCounts used
    (List.range nodes.length) (-1, ⊥)
    (Or.inl ⟨i0, List.mem_range.mpr hi0, hu0⟩)
  have hval := selectBest_fold_valid nodes alpha cap catCounts used
    (List.range nodes.length) (-1, ⊥)
    (by intro h; exact absurd rfl h)
    (fun i hi => List.mem_range.mp hi)
  unfold selectBest
  exact hval hne

theorem rerank_fold_spec (nodes : List Node) (alpha : ℝ) (cap : WithTop ℝ) :
    ∀ (l : List ℕ) (st : RerankState),
      st.used.length = nodes.length →
      st.out.length + l.length = nodes.length →
      (st.out : Multiset Node) +
        ((((List.range nodes.length).filter (fun i => !(st.used.getD i false))).map
          (nth nodes) : List Node) : Multiset Node) = (nodes : Multiset Node) →
      ((l.foldl (fun s _ => rerankStep nodes alpha cap s) st).out.length = nodes.length ∧
       ((l.foldl (fun s _ => rerankStep nodes alpha cap s) st).out : Multiset Node) =
          (nodes : Multiset Node)) := by
  intro l
  induction l with
  | nil =>
      intro st hul hol hms
      simp only [List.foldl_nil]
      have hcard := congrArg Multiset.card hms
      simp only [Multiset.card_add, Multiset.coe_card, List.length_map] at hcard
      simp only [List.length_nil, Nat.add_zero] at hol
      have hfe : (((List.range nodes.length).filter
          (fun i => !(st.used.getD i false))).length) = 0 := by omega
      have hnil : ((List.range nodes.length).filter (fun i => !(st.used.getD i false))) = [] :=
        List.eq_nil_of_length_eq_zero hfe
      rw [hnil] at hms
      simp only [List.map_nil] at hms
      refine ⟨hol, ?_⟩
      simpa using hms
  | cons x t ih =>
      intro st hul hol hms
      simp only [List.foldl_cons]
      -- an unused slot remains
      have hcard := congrArg Multiset.card hms
      simp only [Multiset.card_add, Multiset.coe_card, List.length_map] at hcard
      simp only [List.length_cons] at hol
      have hfpos : 0 < (((List.range nodes.length).filter
          (fun i => !(st.used.getD i false))).length) := by omega
      obtain ⟨i0, hi0mem⟩ := List.exists_mem_of_length_pos hfpos
      have hi0 := List.mem_filter.mp hi0mem
      have hex : ∃ i, i < nodes.length ∧ st.used.getD i false = false := by
        refine ⟨i0, List.mem_range.mp hi0.1, ?_⟩
        have := hi0.2
        simpa using this
      obtain ⟨hb0, hblt, hbun⟩ := selectBest_valid nodes alpha cap st.catCounts st.used hex
      set bi := (selectBest nodes alpha cap st.catCounts st.used).1.toNat with hbi
      have hstep_used : (rerankStep nodes alpha cap st).used = st.used.set bi true := rfl
      have hstep_out : (rerankStep nodes alpha cap st).out = st.out ++ [nth nodes bi] := rfl
      apply ih
      · rw [hstep_used]
        simpa using hul
      · rw [hstep_out]
        simp only [List.length_append, List.length_singleton]
        omega
      · rw [hstep_used, hstep_out]
        have hflip := filter_flip_multiset (List.range nodes.length) (List.nodup_range _)
          bi (List.mem_range.mpr hblt)
          (fun i => !(st.used.getD i false))
          (fun i => !((st.used.set bi true).getD i false))
          (by show (!(st.used.getD bi false)) = true; rw [hbun]; rfl)
          (by
            show (!((st.used.set bi true).getD bi false)) = false
            rw [getD_set_self_bool st.used bi true (by omega)]
            rfl)
          (by
            intro i _ hib
            show (!(st.used.getD i false)) = (!((st.used.set bi true).getD i false))
            have hne := getD_set_ne_bool st.used bi i true (Ne.symm hib)
            rw [hne])
        have hmapflip :
            ((((List.range nodes.length).filter (fun i => !(st.used.getD i false))).map
              (nth nodes) : List Node) : Multiset Node) =
            nth nodes bi ::ₘ
              ((((List.range nodes.length).filter
                (fun i => !((st.used.set bi true).getD i false))).map
                (nth nodes) : List Node) : Multiset Node) := by
          rw [← Multiset.map_coe, ← Multiset.map_coe, hflip, Multiset.map_cons]
        rw [← hms, hmapflip, ← Multiset.coe_add, Multiset.coe_singleton]
        simp only [← Multiset.singleton_add]
        abel

/-- `rerankWithCategoryDiversity` returns a permutation of its input. -/
theorem rerank_multiset (nodes : List Node) (alpha : ℝ) (cap : WithTop ℝ) :
    ((rerankWithCategoryDiversity nodes alpha cap : List Node) : Multiset Node) =
      (nodes : Multiset Node) := by
  unfold rerankWithCategoryDiversity
  have hinit := rerank_fold_spec nodes alpha cap (List.range nodes.length)
    { used := List.replicate nodes.length false, out := [], catCounts := fun _ => 0 }
    (by simp) (by simp)
    (by
      have hfilter : (List.range nodes.length).filter
          (fun i => !((List.replicate nodes.length false).getD i false)) =
          List.range nodes.length := by
        apply List.filter_eq_self.mpr
        intro i _
        rw [getD_replicate_bool]
        rfl
      rw [hfilter, map_nth_range]
      simp)
  exact hinit.2

theorem rerank_length (nodes : List Node) (alpha : ℝ) (cap : WithTop ℝ) :
    (rerankWithCategoryDiversity nodes alpha cap).length = nodes.length := by
  have := congrArg Multiset.card (rerank_multiset nodes alpha cap)
  simpa using this

theorem rerank_perm (nodes : List Node) (alpha : ℝ) (cap : WithTop ℝ) :
    List.Perm (rerankWithCategoryDiversity nodes alpha cap) nodes :=
  Multiset.coe_eq_coe.mp (rerank_multiset nodes alpha cap)

/-! ### From pipeline membership back to the scoring of one candidate -/

theorem scoreCandidate_some_spec (cfg : Config) (u : User) (sc : String → ℕ)
    (pbc : String → ℝ) (mp : ℝ) (ev : Event) (node : Node)
    (h : scoreCandidate cfg u sc pbc mp ev = some node) :
    node.event = ev ∧ node.id = ev.id ∧ ev.id ≠ "" ∧
    (attendedOf u).contains ev.id = false ∧ node.popularity = clampPop ev.popularity ∧
    node.distance = distanceOf u ev ∧
    node.score = combinedScoreOf cfg u sc pbc mp ev := by
  unfold scoreCandidate at h
  split_ifs at h with h1 h2 h3
  have hnode := Option.some_injective _ h
  rw [← hnode]
  refine ⟨rfl, rfl, h1, ?_, rfl, rfl, rfl⟩
  rcases Bool.eq_false_or_eq_true ((attendedOf u).contains ev.id) with ht | hf
  · exact absurd ht h2
  · exact hf

theorem scoreCandidate_none_iff (cfg : Config) (u : User) (sc : String → ℕ)
    (pbc : String → ℝ) (mp : ℝ) (ev : Event) :
    scoreCandidate cfg u sc pbc mp ev = none ↔
      ev.id = "" ∨ ev.id ∈ attendedOf u ∨ skipByCutoff cfg u ev = true := by
  unfold scoreCandidate
  split_ifs with h1 h2 h3 <;> simp_all

theorem mem_scoreCandidates (cfg : Config) (u : User) (events : List Event)
    (sim : String → Option (List String)) (node : Node)
    (h : node ∈ scoreCandidates cfg u events sim) :
    ∃ ev ∈ events,
      scoreCandidate cfg u (buildSimilarCounts (attendedOf u) sim)
        (if coldStart u then buildCategoryPopularityMap events else fun _ => 0)
        (if coldStart u then computeMaxPriorAcrossEvents events
          (if coldStart u then buildCategoryPopularityMap events else fun _ => 0) else 0)
        ev = some node := by
  unfold scoreCandidates at h
  obtain ⟨ev, hev, hsome⟩ := List.mem_filterMap.mp h
  exact ⟨ev, hev, hsome⟩

theorem mem_runScan (k : ℕ) (xs : List Node) (node : Node) (h : node ∈ runScan k xs) :
    node ∈ xs := by
  obtain ⟨_, _, D, hsum, _⟩ := runScan_invariant k xs
  have hle : (runScan k xs : Multiset Node) ≤ (xs : Multiset Node) := by
    rw [hsum]
    exact Multiset.le_add_right _ _
  have : node ∈ (runScan k xs : Multiset Node) := Multiset.mem_coe.mpr h
  exact Multiset.mem_coe.mp (Multiset.mem_of_le hle this)

theorem mem_getRecommendedEventsWith (cfg : Config) (user : User) (events : List Event)
    (sim : String → Option (List String)) (limit : ℝ) (ev : Event)
    (h : ev ∈ getRecommendedEventsWith cfg user events sim limit) :
    ∃ node ∈ scoreCandidates cfg user events sim, node.event = ev := by
  simp only [getRecommendedEventsWith] at h
  split_ifs at h with h1 h2 h3 h4
  · simp at h
  · simp at h
  · simp at h
  · obtain ⟨node, hn, hne⟩ := List.mem_map.mp h
    refine ⟨node, ?_, hne⟩
    have hn2 := ((rerank_perm _ _ _).mem_iff).mp hn
    have hn3 := ((List.mergeSort_perm _ rankLe).mem_iff).mp hn2
    exact mem_runScan _ _ _ hn3
  · obtain ⟨node, hn, hne⟩ := List.mem_map.mp h
    refine ⟨node, ?_, hne⟩
    have hn3 := ((List.mergeSort_perm _ rankLe).mem_iff).mp hn
    exact mem_runScan _ _ _ hn3

/-! ## Claim theorems -/

/-- C1: for every user, event list, similarity index, and limit, no event
returned by `getRecommendedEvents(user, events, eventSimilarity, limit)` has
an identifier contained in `user.attendedEvents`. -/
theorem claim_C1 (user : User) (events : List Event)
    (eventSimilarity : String → Option (List String)) (limit : ℝ) (ev : Event)
    (hmem : ev ∈ getRecommendedEvents user events eventSimilarity limit) :
    ev.id ∉ attendedOf user := by
  obtain ⟨node, hnode, hev⟩ :=
    mem_getRecommendedEventsWith CONFIG user events eventSimilarity limit ev hmem
  obtain ⟨ev', _, hsome⟩ :=
    mem_scoreCandidates CONFIG user events eventSimilarity node hnode
  obtain ⟨hevt, _, _, hcont, _⟩ := scoreCandidate_some_spec _ _ _ _ _ _ _ hsome
  have heq : ev = ev' := by rw [← hev, hevt]
  intro hmem2
  have helem : (attendedOf user).elem ev'.id = true :=
    List.elem_iff.mpr (heq ▸ hmem2)
  have hc : (attendedOf user).contains ev'.id = (attendedOf user).elem ev'.id := rfl
  rw [hc, helem] at hcont
  exact absurd hcont (by simp)

/-- C4: for every input, the set of event identifiers produced by the bounded
top-K heap scan in `getRecommendedEvents` equals the set produced by scoring
all eligible candidates, fully sorting them by the total ranking order
(score descending, then distance ascending, then popularity descending, then
identifier ascending) and truncating to `k`. -/
theorem claim_C4 (user : User) (events : List Event)
    (eventSimilarity : String → Option (List String)) (k : ℕ) :
    idsOf (runScan k (scoreCandidates CONFIG user events eventSimilarity)) =
      idsOf (fullSortThenTruncate k (scoreCandidates CONFIG user events eventSimilarity)) :=
  runScan_ids_eq_sort k _

/-- C6: `rerankWithCategoryDiversity` is a permutation of its input: for every
non-empty list of scored nodes the output has the same length and the same
multiset of elements (hence the same set of event identifiers) as the input.
-/
theorem claim_C6 (nodes : List Node) (alpha : ℝ) (perCategoryCap : WithTop ℝ)
    (_hne : nodes ≠ []) :
    (rerankWithCategoryDiversity nodes alpha perCategoryCap).length = nodes.length ∧
    ((rerankWithCategoryDiversity nodes alpha perCategoryCap : List Node) : Multiset Node) =
      (nodes : Multiset Node) ∧
    idsOf (rerankWithCategoryDiversity nodes alpha perCategoryCap) = idsOf nodes := by
  refine ⟨rerank_length _ _ _, rerank_multiset _ _ _, ?_⟩
  unfold idsOf
  rw [← List.toFinset_coe, ← List.toFinset_coe]
  congr 1
  rw [← Multiset.map_coe, ← Multiset.map_coe, rerank_multiset]

/-- Witness for C6: the re-rank of a concrete one-node list. -/
theorem claim_C6_witness :
    ([wSingleNode] : List Node) ≠ [] ∧
    ((rerankWithCategoryDiversity [wSingleNode] (0.08 : ℝ) ((3 : ℝ) : WithTop ℝ)).length = 1 ∧
     ((rerankWithCategoryDiversity [wSingleNode] (0.08 : ℝ) ((3 : ℝ) : WithTop ℝ) :
        List Node) : Multiset Node) = (([wSingleNode] : List Node) : Multiset Node) ∧
     idsOf (rerankWithCategoryDiversity [wSingleNode] (0.08 : ℝ) ((3 : ℝ) : WithTop ℝ)) =
        idsOf [wSingleNode]) :=
  ⟨by simp, claim_C6 [wSingleNode] 0.08 ((3 : ℝ) : WithTop ℝ) (by simp)⟩

/-! ### JavaScript 32-bit truncation facts -/

theorem toInt32_natCast (n : ℕ) :
    toInt32 (n : ℝ) = ((n : ℤ) + 2 ^ 31) % (2 ^ 32) - 2 ^ 31 := by
  unfold toInt32 truncTowardZero
  rw [if_pos (by positivity), Int.floor_natCast]

theorem toInt32_intCast_small (m : ℤ) (h0 : 0 ≤ m) (h1 : m < 2 ^ 31) :
    toInt32 ((m : ℤ) : ℝ) = m := by
  unfold toInt32 truncTowardZero
  rw [if_pos (by exact_mod_cast h0), Int.floor_intCast]
  omega

theorem toInt32_range (x : ℝ) : -2 ^ 31 ≤ toInt32 x ∧ toInt32 x < 2 ^ 31 := by
  unfold toInt32
  omega

/-! ### Concrete evaluation of the pipeline on a one-event corpus -/

theorem scoreCandidates_eval :
    scoreCandidates CONFIG wUser [wEvent] wSim =
      [{ score := combinedScoreOf CONFIG wUser
            (buildSimilarCounts (attendedOf wUser) wSim) (fun _ => 0) 0 wEvent
         distance := distanceOf wUser wEvent
         popularity := clampPop wEvent.popularity
         id := wEvent.id
         event := wEvent }] := rfl

theorem runScan_single (x : Node) : runScan 1 [x] = [x] := by
  unfold runScan
  simp only [List.foldl_cons, List.foldl_nil]
  unfold scanStep
  rw [if_pos (by simp)]
  unfold heapPush
  rw [heapSiftUp]
  simp

theorem getRecommendedEvents_eval_single :
    getRecommendedEvents wUser [wEvent] wSim 1 = [wEvent] := by
  unfold getRecommendedEvents
  simp only [getRecommendedEventsWith]
  rw [if_neg (by norm_num)]
  have hk : min (max 0 (toInt32 1)).toNat ([wEvent].length) = 1 := by
    rw [show ((1 : ℝ)) = ((1 : ℕ) : ℝ) by norm_num, toInt32_natCast]
    decide
  rw [hk]
  rw [if_neg (by norm_num)]
  rw [scoreCandidates_eval, runScan_single]
  rw [if_neg (by norm_num)]
  rw [List.mergeSort_singleton]
  rw [if_neg (by simp [CONFIG])]
  rfl

/-- Witness for C1: the single candidate is recommended and was not attended.
-/
theorem claim_C1_witness :
    wEvent ∈ getRecommendedEvents wUser [wEvent] wSim 1 ∧ wEvent.id ∉ attendedOf wUser :=
  ⟨by rw [getRecommendedEvents_eval_single]; exact List.mem_singleton.mpr rfl,
   claim_C1 wUser [wEvent] wSim 1 wEvent
     (by rw [getRecommendedEvents_eval_single]; exact List.mem_singleton.mpr rfl)⟩

/-! ### Output length -/

theorem contains_eq_mem (l : List String) (a : String) : l.contains a = decide (a ∈ l) :=
  List.elem_eq_mem a l

theorem scoreCandidate_isSome_iff (cfg : Config) (u : User) (sc : String → ℕ)
    (pbc : String → ℝ) (mp : ℝ) (ev : Event) :
    (scoreCandidate cfg u sc pbc mp ev).isSome = isEligible cfg u ev := by
  rcases hopt : scoreCandidate cfg u sc pbc mp ev with _ | node
  · have hn := (scoreCandidate_none_iff cfg u sc pbc mp ev).mp hopt
    unfold isEligible
    rcases hn with h | h | h
    · simp [h]
    · simp [contains_eq_mem, h]
    · simp [h]
  · have hn : ¬ (scoreCandidate cfg u sc pbc mp ev = none) := by simp [hopt]
    rw [scoreCandidate_none_iff] at hn
    push_neg at hn
    unfold isEligible
    simp [contains_eq_mem, hn.1, hn.2.1, hn.2.2]

theorem filterMap_scoreCandidate_length (cfg : Config) (u : User) (sc : String → ℕ)
    (pbc : String → ℝ) (mp : ℝ) (events : List Event) :
    (events.filterMap (scoreCandidate cfg u sc pbc mp)).length =
      (events.filter (isEligible cfg u)).length := by
  induction events with
  | nil => rfl
  | cons e t ih =>
      rw [List.filterMap_cons, List.filter_cons]
      have hiff := scoreCandidate_isSome_iff cfg u sc pbc mp e
      rcases hopt : scoreCandidate cfg u sc pbc mp e with _ | node
      · rw [hopt] at hiff
        rw [if_neg (by rw [← hiff]; simp)]
        exact ih
      · rw [hopt] at hiff
        rw [if_pos (by rw [← hiff]; simp)]
        simp only [List.length_cons]
        rw [ih]

theorem scoreCandidates_length (cfg : Config) (u : User) (events : List Event)
    (sim : String → Option (List String)) :
    (scoreCandidates cfg u events sim).length = eligibleCandidateCount cfg u events := by
  unfold scoreCandidates eligibleCandidateCount
  exact filterMap_scoreCandidate_length cfg u _ _ _ events

theorem eligibleCandidateCount_le (cfg : Config) (u : User) (events : List Event) :
    eligibleCandidateCount cfg u events ≤ events.length := by
  unfold eligibleCandidateCount
  exact List.length_filter_le _ _

theorem runScan_length (k : ℕ) (xs : List Node) :
    (runScan k xs).length = min k xs.length := by
  obtain ⟨_, hlen, _⟩ := runScan_invariant k xs
  simpa using hlen

/-- The post-scan output length of the pipeline equals the heap size. -/
theorem getRecommendedEventsWith_length (cfg : Config) (user : User) (events : List Event)
    (sim : String → Option (List String)) (limit : ℝ) (hev : events.length ≠ 0)
    (hlim : ¬ limit ≤ 0) (hk : min (max 0 (toInt32 limit)).toNat events.length ≠ 0) :
    (getRecommendedEventsWith cfg user events sim limit).length =
      min (min (max 0 (toInt32 limit)).toNat events.length)
        (eligibleCandidateCount cfg user events) := by
  simp only [getRecommendedEventsWith]
  rw [if_neg (by push_neg; exact ⟨hev, lt_of_not_le hlim⟩)]
  rw [if_neg hk]
  set k := min (max 0 (toInt32 limit)).toNat events.length with hkdef
  have hheaplen : (runScan k (scoreCandidates cfg user events sim)).length =
      min k (eligibleCandidateCount cfg user events) := by
    rw [runScan_length, scoreCandidates_length]
  by_cases hz : (runScan k (scoreCandidates cfg user events sim)).length = 0
  · rw [if_pos hz]
    rw [hheaplen] at hz
    simp only [List.length_nil]
    omega
  · rw [if_neg hz]
    have hsortlen : ((runScan k (scoreCandidates cfg user events sim)).mergeSort
        rankLe).length = (runScan k (scoreCandidates cfg user events sim)).length :=
      (List.mergeSort_perm _ rankLe).length_eq
    split_ifs with hdiv
    · rw [List.length_map, rerank_length, hsortlen, hheaplen]
    · rw [List.length_map, hsortlen, hheaplen]

/-- C2 (counterexample): at the non-negative integer limit `2^31` the output
is empty although one eligible candidate exists, so the output length is not
`min(limit, eligibleCandidateCount)`. -/
theorem claim_C2_counterexample :
    (getRecommendedEvents wUser [wEvent] wSim ((2 ^ 31 : ℕ) : ℝ)).length ≠
      min (2 ^ 31) (eligibleCandidateCount CONFIG wUser [wEvent]) := by
  have helig : eligibleCandidateCount CONFIG wUser [wEvent] = 1 := rfl
  have hout : getRecommendedEvents wUser [wEvent] wSim ((2 ^ 31 : ℕ) : ℝ) = [] := by
    unfold getRecommendedEvents
    simp only [getRecommendedEventsWith]
    have hg : ¬ (([wEvent] : List Event).length = 0 ∨ (((2 ^ 31 : ℕ) : ℝ)) ≤ 0) := by
      push_neg
      refine ⟨by simp, by norm_num⟩
    rw [if_neg hg]
    have hk : min (max 0 (toInt32 ((2 ^ 31 : ℕ) : ℝ))).toNat ([wEvent].length) = 0 := by
      rw [toInt32_natCast]
      have h1 : (((2 ^ 31 : ℕ) : ℤ) + 2 ^ 31) % 2 ^ 32 - 2 ^ 31 = -2 ^ 31 := by
        push_cast
      rw [h1]
      rfl
    rw [hk]
    rw [if_pos rfl]
  rw [hout, helig]
  norm_num

/-- C2 (amended): for every user, event list, similarity index, and
non-negative integer limit below `2^31` (so that the JavaScript `limit | 0`
truncation is the identity), the output length equals
`min(limit, eligibleCandidateCount)`. -/
theorem claim_C2_amended (user : User) (events : List Event)
    (sim : String → Option (List String)) (limit : ℕ) (hlim : limit < 2 ^ 31) :
    (getRecommendedEvents user events sim (limit : ℝ)).length =
      min limit (eligibleCandidateCount CONFIG user events) := by
  unfold getRecommendedEvents
  by_cases hev : events.length = 0
  · have hevnil : events = [] := List.eq_nil_of_length_eq_zero hev
    subst hevnil
    have helig : eligibleCandidateCount CONFIG user [] = 0 := rfl
    simp only [getRecommendedEventsWith]
    have hguard : ([] : List Event).length = 0 ∨ ((limit : ℕ) : ℝ) ≤ 0 := Or.inl rfl
    rw [if_pos hguard, helig]
    simp
  · by_cases hl0 : limit = 0
    · subst hl0
      simp only [getRecommendedEventsWith]
      have hguard : events.length = 0 ∨ (((0 : ℕ) : ℝ)) ≤ 0 := Or.inr (by norm_num)
      rw [if_pos hguard]
      simp
    · have hlpos : ¬ ((limit : ℝ) ≤ 0) := by
        push_neg
        exact_mod_cast Nat.pos_of_ne_zero hl0
      have htoi : toInt32 (limit : ℝ) = (limit : ℤ) := by
        rw [toInt32_natCast]
        omega
      have hk : min (max 0 (toInt32 (limit : ℝ))).toNat events.length =
          min limit events.length := by
        rw [htoi]
        omega
      have hkz : min limit events.length ≠ 0 := by omega
      rw [getRecommendedEventsWith_length CONFIG user events sim (limit : ℝ) hev hlpos
        (by rw [hk]; exact hkz)]
      rw [hk]
      have hle := eligibleCandidateCount_le CONFIG user events
      omega

/-- Witness for C2 (amended) at `limit = 1` on a one-event corpus. -/
theorem claim_C2_witness :
    (1 : ℕ) < 2 ^ 31 ∧
    (getRecommendedEvents wUser [wEvent] wSim ((1 : ℕ) : ℝ)).length =
      min 1 (eligibleCandidateCount CONFIG wUser [wEvent]) :=
  ⟨by norm_num, claim_C2_amended wUser [wEvent] wSim 1 (by norm_num)⟩

/-- C10: `getRecommendedEvents` coerces its limit through the 32-bit
truncation `limit | 0` (truncation toward zero with wraparound at `2^31`,
so `limit = 2^31` yields an empty result for every input) and defaults the
omitted limit to 5. -/
theorem claim_C10 :
    (∀ (user : User) (events : List Event) (sim : String → Option (List String))
      (limit : ℝ), 0 < limit →
        getRecommendedEvents user events sim limit =
          getRecommendedEvents user events sim ((toInt32 limit : ℤ) : ℝ)) ∧
    (∀ (user : User) (events : List Event) (sim : String → Option (List String)),
      getRecommendedEvents user events sim ((2 ^ 31 : ℕ) : ℝ) = []) ∧
    (∀ (user : User) (events : List Event) (sim : String → Option (List String)),
      getRecommendedEventsDefault user events sim =
        getRecommendedEvents user events sim 5) := by
  refine ⟨?_, ?_, fun _ _ _ => rfl⟩
  · intro u e s x hx
    unfold getRecommendedEvents
    simp only [getRecommendedEventsWith]
    by_cases hev : e.length = 0
    · have hg1 : e.length = 0 ∨ x ≤ 0 := Or.inl hev
      have hg2 : e.length = 0 ∨ ((toInt32 x : ℤ) : ℝ) ≤ 0 := Or.inl hev
      rw [if_pos hg1, if_pos hg2]
    · have hg1 : ¬ (e.length = 0 ∨ x ≤ 0) := by push_neg; exact ⟨hev, hx⟩
      rcases le_or_lt (toInt32 x) 0 with hneg | hpos
      · rw [if_neg hg1]
        have hk : min (max 0 (toInt32 x)).toNat e.length = 0 := by omega
        rw [hk]
        rw [if_pos rfl]
        have hg2 : e.length = 0 ∨ ((toInt32 x : ℤ) : ℝ) ≤ 0 :=
          Or.inr (by exact_mod_cast hneg)
        rw [if_pos hg2]
      · have hxr : ¬ (((toInt32 x : ℤ) : ℝ) ≤ 0) := by
          push_neg
          exact_mod_cast hpos
        have hg2 : ¬ (e.length = 0 ∨ ((toInt32 x : ℤ) : ℝ) ≤ 0) := by
          push_neg
          exact ⟨hev, lt_of_not_le hxr⟩
        rw [if_neg hg1, if_neg hg2]
        have hidem : toInt32 ((toInt32 x : ℤ) : ℝ) = toInt32 x :=
          toInt32_intCast_small _ (le_of_lt hpos) (toInt32_range x).2
        rw [hidem]
  · intro u e s
    unfold getRecommendedEvents
    simp only [getRecommendedEventsWith]
    by_cases hev : e.length = 0
    · have hg : e.length = 0 ∨ (((2 ^ 31 : ℕ) : ℝ)) ≤ 0 := Or.inl hev
      rw [if_pos hg]
    · have hg : ¬ (e.length = 0 ∨ (((2 ^ 31 : ℕ) : ℝ)) ≤ 0) := by
        push_neg
        refine ⟨hev, by norm_num⟩
      rw [if_neg hg]
      have hk : min (max 0 (toInt32 ((2 ^ 31 : ℕ) : ℝ))).toNat e.length = 0 := by
        rw [toInt32_natCast]
        have h1 : (((2 ^ 31 : ℕ) : ℤ) + 2 ^ 31) % 2 ^ 32 - 2 ^ 31 = -2 ^ 31 := by
          push_cast
        rw [h1]
        have h2 : (max 0 (-2 ^ 31 : ℤ)).toNat = 0 := by decide
        rw [h2]
        exact Nat.zero_min _
      rw [hk]
      rw [if_pos rfl]

/-- Witness for C10 at a fractional positive limit and at `2^31`. -/
theorem claim_C10_witness :
    (0 : ℝ) < 27 / 10 ∧
    getRecommendedEvents wUser [] wSim (27 / 10) =
      getRecommendedEvents wUser [] wSim ((toInt32 (27 / 10) : ℤ) : ℝ) ∧
    getRecommendedEvents wUser [] wSim ((2 ^ 31 : ℕ) : ℝ) = [] :=
  ⟨by norm_num, claim_C10.1 wUser [] wSim (27 / 10) (by norm_num),
    claim_C10.2.1 wUser [] wSim⟩

/-- C3 (counterexample): with a user at a valid location and a candidate
without one — an instance of "either location is missing" — the geo signal
stays ACTIVE for this user, and the proximity value entering the score is
the number 0, contradicting "proximity is undefined (not zero) and the geo
signal is marked inactive for this user". -/
theorem claim_C3_counterexample :
    ((activeFor wUserLoc).geo = true ∧ hasValidLocation wEventNoLoc.location = false) ∧
    distanceOf wUserLoc wEventNoLoc = ⊤ ∧
    geoScoreOf CONFIG wUserLoc wEventNoLoc = 0 := by
  have hdist : distanceOf wUserLoc wEventNoLoc = ⊤ := by
    unfold distanceOf
    rw [if_neg]
    intro hcond
    have : (hasGeo wUserLoc && hasValidLocation wEventNoLoc.location) = false := rfl
    rw [this] at hcond
    exact Bool.false_ne_true hcond
  refine ⟨⟨rfl, rfl⟩, hdist, ?_⟩
  unfold geoScoreOf
  have hact : (activeFor wUserLoc).geo = true := rfl
  rw [if_pos hact, hdist]
  unfold proximityScoreFromKm
  rw [if_pos rfl]

/-- C3 (amended): whenever either the user's or the candidate's location is
missing or invalid, the working distance is the `Infinity` sentinel and the
geo proximity value entering the combined score is the well-defined number 0
(never NaN); the geo signal is marked inactive exactly when the USER's
location is invalid — a missing candidate location leaves it active. -/
theorem claim_C3_amended (cfg : Config) (u : User) (ev : Event)
    (h : hasValidLocation u.location = false ∨ hasValidLocation ev.location = false) :
    distanceOf u ev = ⊤ ∧ geoScoreOf cfg u ev = 0 ∧
    ((activeFor u).geo = true ↔ hasValidLocation u.location = true) := by
  have hdist : distanceOf u ev = ⊤ := by
    unfold distanceOf
    rw [if_neg]
    intro hcond
    rw [Bool.and_eq_true] at hcond
    rcases h with h | h
    · have : hasGeo u = hasValidLocation u.location := rfl
      rw [this, h] at hcond
      exact Bool.false_ne_true hcond.1
    · rw [h] at hcond
      exact Bool.false_ne_true hcond.2
  refine ⟨hdist, ?_, Iff.rfl⟩
  unfold geoScoreOf
  split_ifs with hact
  · rw [hdist]
    unfold proximityScoreFromKm
    rw [if_pos rfl]
  · rfl

/-- Witness for C3 (amended) at the concrete user/event pair. -/
theorem claim_C3_witness :
    (hasValidLocation wUserLoc.location = false ∨
      hasValidLocation wEventNoLoc.location = false) ∧
    (distanceOf wUserLoc wEventNoLoc = ⊤ ∧ geoScoreOf CONFIG wUserLoc wEventNoLoc = 0 ∧
     ((activeFor wUserLoc).geo = true ↔ hasValidLocation wUserLoc.location = true)) :=
  ⟨Or.inr rfl, claim_C3_amended CONFIG wUserLoc wEventNoLoc (Or.inr rfl)⟩

/-- C9: for every fixed positive finite distance and decay constants
`0 < d0 ≤ d0'`, increasing the decay constant never decreases the proximity
score. -/
theorem claim_C9 (d d0 d0' : ℝ) (hd : 0 < d) (h0 : 0 < d0) (h01 : d0 ≤ d0') :
    proximityScoreFromKm ((d : ℝ) : WithTop ℝ) d0 ≤
      proximityScoreFromKm ((d : ℝ) : WithTop ℝ) d0' := by
  unfold proximityScoreFromKm
  rw [if_neg (WithTop.coe_ne_top), if_neg (WithTop.coe_ne_top)]
  apply Real.exp_le_exp.mpr
  rw [WithTop.untop'_coe]
  rw [max_eq_right (le_of_lt hd)]
  rw [neg_div, neg_div, neg_le_neg_iff]
  have h0' : 0 < d0' := lt_of_lt_of_le h0 h01
  exact (div_le_div_iff_of_pos_left hd h0' h0).mpr h01

/-- Witness for C9 at `d = 1`, `d0 = 1`, `d0' = 2`. -/
theorem claim_C9_witness :
    (0 : ℝ) < 1 ∧ (0 : ℝ) < 1 ∧ (1 : ℝ) ≤ 2 ∧
    proximityScoreFromKm ((1 : ℝ) : WithTop ℝ) 1 ≤
      proximityScoreFromKm ((1 : ℝ) : WithTop ℝ) 2 :=
  ⟨by norm_num, by norm_num, by norm_num,
    claim_C9 1 1 2 (by norm_num) (by norm_num) (by norm_num)⟩

/-! ### Distance contract -/

theorem atan2_nonneg (y x : ℝ) (hy : 0 ≤ y) (hx : 0 ≤ x) : 0 ≤ atan2 y x := by
  unfold atan2
  by_cases h1 : 0 < x
  · rw [if_pos h1]
    rw [show (0 : ℝ) = Real.arctan 0 by simp]
    exact Real.arctan_strictMono.monotone (div_nonneg hy (le_of_lt h1))
  · rw [if_neg h1]
    have hx0 : x = 0 := le_antisymm (not_lt.mp h1) hx
    rw [if_neg (by rw [hx0]; exact lt_irrefl 0)]
    by_cases h4 : 0 < y
    · rw [if_pos h4]
      linarith [Real.pi_pos]
    · rw [if_neg h4, if_neg (not_lt.mpr hy)]

theorem haversineKm_nonneg (lat1d lng1d lat2d lng2d : ℝ) :
    0 ≤ haversineKm lat1d lng1d lat2d lng2d := by
  unfold haversineKm
  dsimp only
  have hat := atan2_nonneg (Real.sqrt (Real.sin ((toRad lat2d - toRad lat1d) / 2) ^ 2 +
      Real.cos (toRad lat1d) * Real.cos (toRad lat2d) *
        Real.sin (toRad (lng2d - lng1d) / 2) ^ 2))
    (Real.sqrt (1 - (Real.sin ((toRad lat2d - toRad lat1d) / 2) ^ 2 +
      Real.cos (toRad lat1d) * Real.cos (toRad lat2d) *
        Real.sin (toRad (lng2d - lng1d) / 2) ^ 2)))
    (Real.sqrt_nonneg _) (Real.sqrt_nonneg _)
  have hR : (0 : ℝ) ≤ EARTH_RADIUS_KM := by norm_num [EARTH_RADIUS_KM]
  exact mul_nonneg hR (by linarith)

theorem toRad_zero : toRad 0 = 0 := by
  unfold toRad
  ring

theorem haversineKm_self (lat lng : ℝ) : haversineKm lat lng lat lng = 0 := by
  unfold haversineKm
  dsimp only
  rw [sub_self, sub_self, toRad_zero]
  rw [zero_div, Real.sin_zero]
  have ha : (0 : ℝ) ^ 2 + Real.cos (toRad lat) * Real.cos (toRad lat) * 0 ^ 2 = 0 := by ring
  rw [ha, Real.sqrt_zero, sub_zero, Real.sqrt_one]
  unfold atan2
  rw [if_pos (by norm_num : (0 : ℝ) < 1)]
  rw [zero_div, Real.arctan_zero]
  ring

theorem hasValidLocation_destruct (p : Option GeoPoint) (h : hasValidLocation p = true) :
    ∃ la ln : ℝ, p = some ⟨some la, some ln⟩ := by
  rcases p with _ | ⟨la, ln⟩
  · simp [hasValidLocation] at h
  · rcases la with _ | lav
    · simp [hasValidLocation] at h
    · rcases ln with _ | lnv
      · simp [hasValidLocation] at h
      · exact ⟨lav, lnv, rfl⟩

/-- C7: `calculateDistance` returns the `Infinity` sentinel iff either point
is invalid; on valid points it returns a non-negative finite number of
kilometers, and on equal valid points exactly 0. -/
theorem claim_C7 :
    (∀ p q : Option GeoPoint,
      hasValidLocation p = false ∨ hasValidLocation q = false →
        calculateDistance p q = ⊤) ∧
    (∀ p q : Option GeoPoint, hasValidLocation p = true → hasValidLocation q = true →
      ∃ d : ℝ, calculateDistance p q = (d : WithTop ℝ) ∧ 0 ≤ d) ∧
    (∀ p : Option GeoPoint, hasValidLocation p = true →
      calculateDistance p p = ((0 : ℝ) : WithTop ℝ)) := by
  refine ⟨?_, ?_, ?_⟩
  · intro p q h
    rcases p with _ | ⟨_ | la, _ | ln⟩ <;>
      rcases q with _ | ⟨_ | la2, _ | ln2⟩ <;>
        first
          | rfl
          | (exfalso
             rcases h with h | h <;> simp [hasValidLocation] at h)
  · intro p q hp hq
    obtain ⟨la, ln, rfl⟩ := hasValidLocation_destruct p hp
    obtain ⟨la2, ln2, rfl⟩ := hasValidLocation_destruct q hq
    exact ⟨haversineKm la ln la2 ln2, rfl, haversineKm_nonneg la ln la2 ln2⟩
  · intro p hp
    obtain ⟨la, ln, rfl⟩ := hasValidLocation_destruct p hp
    show ((haversineKm la ln la ln : ℝ) : WithTop ℝ) = ((0 : ℝ) : WithTop ℝ)
    rw [haversineKm_self]

/-- Witness for C7 at a concrete valid point (and one invalid pair). -/
theorem claim_C7_witness :
    calculateDistance none wPoint = ⊤ ∧
    hasValidLocation wPoint = true ∧
    calculateDistance wPoint wPoint = ((0 : ℝ) : WithTop ℝ) :=
  ⟨claim_C7.1 none wPoint (Or.inl rfl), rfl, claim_C7.2.2 wPoint rfl⟩

/-! ### The combined-score formula -/

theorem ite_weight_nonneg (c : Bool) (w : ℝ) (hw : 0 ≤ w) :
    0 ≤ (if c = true then w else 0) := by
  split_ifs
  · exact hw
  · exact le_refl 0

theorem weightSum_nonneg (w : Weights) (a : Active) (hp : 0 ≤ w.pref) (hs : 0 ≤ w.sim)
    (hg : 0 ≤ w.geo) (hpo : 0 ≤ w.pop) (hc : 0 ≤ w.cold) : 0 ≤ weightSum w a := by
  unfold weightSum
  have n1 := ite_weight_nonneg a.pref w.pref hp
  have n2 := ite_weight_nonneg a.sim w.sim hs
  have n3 := ite_weight_nonneg a.geo w.geo hg
  have n4 := ite_weight_nonneg a.pop w.pop hpo
  have n5 := ite_weight_nonneg a.cold w.cold hc
  linarith

theorem ite_mul_weight (c : Bool) (w v : ℝ) :
    (if c = true then w * v else 0) = (if c = true then w else 0) * v := by
  split_ifs
  · rfl
  · rw [zero_mul]

/-- C5: the combined score equals the sum of the active signals' weighted
values divided by the sum of the active weights (per-user activity:
preference iff preferences non-empty, content-similarity iff history
non-empty, geo iff the user's location is valid, popularity always,
cold-start iff both preference and similarity are inactive); a zero
active-weight sum leads to the substitute divisor 1 and an all-zero score. -/
theorem claim_C5 (cfg : Config) (u : User) (simCounts : String → ℕ)
    (popByCat : String → ℝ) (maxPrior : ℝ) (ev : Event)
    (hp : 0 ≤ cfg.weights.pref) (hs : 0 ≤ cfg.weights.sim) (hg : 0 ≤ cfg.weights.geo)
    (hpo : 0 ≤ cfg.weights.pop) (hc : 0 ≤ cfg.weights.cold) :
    ((activeFor u).pref = true ↔ prefsOf u ≠ []) ∧
    ((activeFor u).sim = true ↔ attendedOf u ≠ []) ∧
    ((activeFor u).geo = true ↔ hasValidLocation u.location = true) ∧
    (activeFor u).pop = true ∧
    ((activeFor u).cold = true ↔ ((activeFor u).pref = false ∧ (activeFor u).sim = false)) ∧
    combinedScoreOf cfg u simCounts popByCat maxPrior ev =
      specCombinedScore cfg.weights (activeFor u) (prefScoreOf u ev)
        (simScoreOf u simCounts ev) (geoScoreOf cfg u ev) (clampPop ev.popularity)
        (coldScoreOf u popByCat maxPrior ev) ∧
    (weightSum cfg.weights (activeFor u) = 0 →
      combinedScoreOf cfg u simCounts popByCat maxPrior ev = 0) := by
  have hnn := weightSum_nonneg cfg.weights (activeFor u) hp hs hg hpo hc
  refine ⟨?_, ?_, Iff.rfl, rfl, ?_, ?_, ?_⟩
  · show hasPrefs u = true ↔ prefsOf u ≠ []
    unfold hasPrefs
    simp
  · show hasHistory u = true ↔ attendedOf u ≠ []
    unfold hasHistory
    simp
  · show coldStart u = true ↔ (hasPrefs u = false ∧ hasHistory u = false)
    unfold coldStart
    simp
  · unfold combinedScoreOf specCombinedScore weightSumSafe
    congr 1
    by_cases hz : weightSum cfg.weights (activeFor u) = 0
    · rw [if_pos (le_of_eq hz), if_pos hz]
    · rw [if_neg (by intro hle; exact hz (le_antisymm hle hnn)), if_neg hz]
  · intro hz
    unfold combinedScoreOf weightSumSafe
    rw [if_pos (le_of_eq hz), div_one]
    rw [ite_mul_weight, ite_mul_weight, ite_mul_weight, ite_mul_weight, ite_mul_weight]
    unfold weightSum at hz
    have n1 := ite_weight_nonneg (activeFor u).pref cfg.weights.pref hp
    have n2 := ite_weight_nonneg (activeFor u).sim cfg.weights.sim hs
    have n3 := ite_weight_nonneg (activeFor u).geo cfg.weights.geo hg
    have n4 := ite_weight_nonneg (activeFor u).pop cfg.weights.pop hpo
    have n5 := ite_weight_nonneg (activeFor u).cold cfg.weights.cold hc
    have z1 : (if (activeFor u).pref = true then cfg.weights.pref else 0) = 0 := by linarith
    have z2 : (if (activeFor u).sim = true then cfg.weights.sim else 0) = 0 := by linarith
    have z3 : (if (activeFor u).geo = true then cfg.weights.geo else 0) = 0 := by linarith
    have z4 : (if (activeFor u).pop = true then cfg.weights.pop else 0) = 0 := by linarith
    have z5 : (if (activeFor u).cold = true then cfg.weights.cold else 0) = 0 := by linarith
    rw [z1, z2, z3, z4, z5]
    ring

/-- Witness for C5 at the shipped configuration and a concrete user/event. -/
theorem claim_C5_witness :
    (0 : ℝ) ≤ CONFIG.weights.pref ∧
    (((activeFor wUser).pref = true ↔ prefsOf wUser ≠ []) ∧
     ((activeFor wUser).sim = true ↔ attendedOf wUser ≠ []) ∧
     ((activeFor wUser).geo = true ↔ hasValidLocation wUser.location = true) ∧
     (activeFor wUser).pop = true ∧
     ((activeFor wUser).cold = true ↔
        ((activeFor wUser).pref = false ∧ (activeFor wUser).sim = false)) ∧
     combinedScoreOf CONFIG wUser (fun _ => 0) (fun _ => 0) 0 wEvent =
       specCombinedScore CONFIG.weights (activeFor wUser) (prefScoreOf wUser wEvent)
         (simScoreOf wUser (fun _ => 0) wEvent) (geoScoreOf CONFIG wUser wEvent)
         (clampPop wEvent.popularity) (coldScoreOf wUser (fun _ => 0) 0 wEvent) ∧
     (weightSum CONFIG.weights (activeFor wUser) = 0 →
       combinedScoreOf CONFIG wUser (fun _ => 0) (fun _ => 0) 0 wEvent = 0)) :=
  ⟨by norm_num [CONFIG],
   claim_C5 CONFIG wUser (fun _ => 0) (fun _ => 0) 0 wEvent (by norm_num [CONFIG])
     (by norm_num [CONFIG]) (by norm_num [CONFIG]) (by norm_num [CONFIG])
     (by norm_num [CONFIG])⟩

/-! ### Popularity clamping -/

theorem foldl_bumpR_count (cats : List String) (t : String → ℝ) (v : ℝ) (c : String) :
    (cats.foldl (fun t2 c2 => bumpR t2 c2 v) t) c = t c + (cats.count c : ℝ) * v := by
  induction cats generalizing t with
  | nil => simp
  | cons d tail ih =>
      rw [List.foldl_cons, ih]
      unfold bumpR
      by_cases hcd : c = d
      · subst hcd
        rw [if_pos rfl, List.count_cons]
        simp only [beq_self_eq_true, if_true]
        push_cast
        ring
      · rw [if_neg hcd, List.count_cons]
        have : (d == c) = false := by
          rcases Bool.eq_false_or_eq_true (d == c) with ht | hf
          · exact absurd (eq_comm.mp (eq_of_beq ht)) hcd
          · exact hf
        rw [this]
        simp

theorem buildCategoryPopularityMap_spec (events : List Event) (c : String) :
    buildCategoryPopularityMap events c =
      (events.map (fun e => ((catsOf e).count c : ℝ) * clampPop e.popularity)).sum := by
  unfold buildCategoryPopularityMap
  suffices h : ∀ (t : String → ℝ),
      (events.foldl (fun tally e => (catsOf e).foldl
        (fun t2 c2 => bumpR t2 c2 (clampPop e.popularity)) tally) t) c =
      t c + (events.map (fun e => ((catsOf e).count c : ℝ) * clampPop e.popularity)).sum by
    have := h (fun _ => 0)
    simpa using this
  induction events with
  | nil => intro t; simp
  | cons e tail ih =>
      intro t
      rw [List.foldl_cons, ih, foldl_bumpR_count]
      rw [List.map_cons, List.sum_cons]
      ring

/-- C8: every popularity value is clamped to `[0,1]` before use — in the
node that feeds the scoring formula and the ranking tiebreaker, and in the
category-popularity prior; a non-numeric popularity counts as 0, and no
candidate is ever rejected because of its popularity (skips are exactly the
missing-id / already-attended / hard-cutoff cases). -/
theorem claim_C8 :
    (∀ p : Option ℝ, 0 ≤ clampPop p ∧ clampPop p ≤ 1) ∧
    clampPop none = 0 ∧
    (∀ (cfg : Config) (u : User) (sc : String → ℕ) (pbc : String → ℝ) (mp : ℝ)
      (ev : Event) (node : Node), scoreCandidate cfg u sc pbc mp ev = some node →
        node.popularity = clampPop ev.popularity ∧
        0 ≤ node.popularity ∧ node.popularity ≤ 1) ∧
    (∀ (events : List Event) (c : String),
      buildCategoryPopularityMap events c =
        (events.map (fun e => ((catsOf e).count c : ℝ) * clampPop e.popularity)).sum) ∧
    (∀ (cfg : Config) (u : User) (sc : String → ℕ) (pbc : String → ℝ) (mp : ℝ)
      (ev : Event), scoreCandidate cfg u sc pbc mp ev = none ↔
        (ev.id = "" ∨ ev.id ∈ attendedOf u ∨ skipByCutoff cfg u ev = true)) := by
  have hbounds : ∀ p : Option ℝ, 0 ≤ clampPop p ∧ clampPop p ≤ 1 := by
    intro p
    rcases p with _ | x
    · exact ⟨le_refl 0, by norm_num [clampPop]⟩
    · constructor
      · exact le_max_left 0 _
      · exact max_le (by norm_num) (min_le_left 1 x)
  refine ⟨hbounds, rfl, ?_, buildCategoryPopularityMap_spec, scoreCandidate_none_iff⟩
  intro cfg u sc pbc mp ev node h
  obtain ⟨_, _, _, _, hpop, _⟩ := scoreCandidate_some_spec cfg u sc pbc mp ev node h
  refine ⟨hpop, ?_, ?_⟩
  · rw [hpop]
    exact (hbounds ev.popularity).1
  · rw [hpop]
    exact (hbounds ev.popularity).2

/-- Witness for C8 at the concrete event (non-numeric popularity ⇒ 0). -/
theorem claim_C8_witness :
    (0 ≤ clampPop wEvent.popularity ∧ clampPop wEvent.popularity ≤ 1) ∧
    (wNode.popularity = clampPop wEvent.popularity ∧
     0 ≤ wNode.popularity ∧ wNode.popularity ≤ 1) :=
  ⟨claim_C8.1 wEvent.popularity,
   claim_C8.2.2.1 CONFIG wUser (buildSimilarCounts (attendedOf wUser) wSim)
     (fun _ => 0) 0 wEvent wNode rfl⟩

end EventRec
